import Mathlib

/-!
Verification development for the opinion-dynamics simulation
(`model.py`, `create_network.py`, `batch_simulations.py`).

The Python code is shallowly embedded over exact rationals:

* a belief density over `B` bins is a function `Fin B → ℚ`;
* the floating-point quantities that are genuinely transcendental in the
  source (the Gaussian pdf used for initial opinions, square roots inside
  `np.std`, the numerically inverted heat-equation matrix) are carried as
  explicit parameters, constrained only by the properties the source
  guarantees for them (e.g. the inverse matrix multiplies back to the
  system matrix);
* randomness is an explicit entropy source: a stream `coin : ℕ → ℚ` of
  uniform draws in `[0,1)` and a stream `pick : ℕ → ℕ` of index draws,
  consumed in program order through an explicit counter;
* unbounded `while` loops take a fuel argument and return `none` when the
  fuel is exhausted (i.e. when the source loop would still be running).
-/

namespace SIOD

/-- A belief density over `B` bins: the vector `self.op` of an `Agent`. -/
abbrev Vec (B : ℕ) := Fin B → ℚ

/-- Total weight of a density, `op.sum()` in the source. -/
def sumV {B : ℕ} (v : Vec B) : ℚ := ∑ i, v i

/-- Normalisation `x / (x.sum() * db)` : the step applied applied after every update in
`Agent.update_opinion_in_interaction` / `update_opinion_in_non_interaction`
and at agent creation (`op / (op.sum() * self.db)`). -/
def normalizeOp {B : ℕ} (db : ℚ) (v : Vec B) : Vec B :=
  fun i => v i / (sumV v * db)

/-- The uniform distribution `self.uniform = np.ones(n_beliefs) / (n_beliefs * self.db)` :
the uniform reference distribution over the belief space. -/
def uniformDist (B : ℕ) (db : ℚ) : Vec B := fun _ => 1 / (B * db)

/-- Bin centers of the belief space: `belief_space_bounds[:-1] + diff/2`
with `bounds = linspace(-1, 1, B+1)`, so center `i` is `-1 + db/2 + i·db`
with `db = 2/B`. -/
def belief_space (B : ℕ) : Vec B :=
  fun i => -1 + (2 / B) / 2 + i * (2 / B)

/-- The blend `perceived_message = alpha * message + (1 - alpha) * self.model.uniform`
(`Agent.update_opinion_in_interaction`). -/
def perceivedMessage {B : ℕ} (db alpha : ℚ) (message : Vec B) : Vec B :=
  fun i => alpha * message i + (1 - alpha) * uniformDist B db i

/-- The product `posterior_op = self.op * perceived_message` : the unnormalised
elementwise posterior of `Agent.update_opinion_in_interaction`. -/
def posteriorOp {B : ℕ} (db alpha : ℚ) (op message : Vec B) : Vec B :=
  fun i => op i * perceivedMessage db alpha message i

/-- Method `Agent.update_opinion_in_interaction`, given the speaker's expressed
density `message` and the filter transparency `alpha` already selected by
group membership.  `eps` stands for `sys.float_info.epsilon`: when the
unnormalised posterior has total weight below `eps` the agent keeps its old
opinion (`posterior_op = self.op`), and in all cases the result is
renormalised by `posterior_op / (posterior_op.sum() * db)`. -/
def update_opinion_in_interaction {B : ℕ} (db eps alpha : ℚ)
    (op message : Vec B) : Vec B :=
  let post := posteriorOp db alpha op message
  if sumV post < eps then normalizeOp db op else normalizeOp db post

/-- The implicit (backward Euler) heat-equation system matrix
`mat_heat_equation` built in `OpinionModel.__init__` with `dt = 1`:
diagonal `1 + 2·κ/db²`, first off-diagonals `-κ/db²`. -/
def mat_heat_equation (B : ℕ) (kappa db : ℚ) : Matrix (Fin B) (Fin B) ℚ :=
  fun i j =>
    (if i = j then 1 + 2 * kappa / db ^ 2 else 0) +
    (if (j : ℕ) = (i : ℕ) + 1 then -(kappa / db ^ 2) else 0) +
    (if (i : ℕ) = (j : ℕ) + 1 then -(kappa / db ^ 2) else 0)

/-- Method `Agent.update_opinion_in_non_interaction`: apply the stored propagator
`Pinv` (the source's `self.model.mat_heat_equ_inv`, computed once by
`np.linalg.inv`) and renormalise. -/
def update_opinion_in_non_interaction {B : ℕ}
    (db : ℚ) (Pinv : Matrix (Fin B) (Fin B) ℚ) (op : Vec B) : Vec B :=
  normalizeOp db (Pinv.mulVec op)

/-- Method `Agent.step`: with the per-tick uniform draw `coin`, communicate when
`coin < communication_frequency` (a no-op when the agent has no
neighbours), otherwise diffuse. -/
def agentStep {B : ℕ} (db eps commf alpha : ℚ)
    (Pinv : Matrix (Fin B) (Fin B) ℚ) (coin : ℚ) (hasNeighbors : Bool)
    (message : Vec B) (op : Vec B) : Vec B :=
  if coin < commf then
    if hasNeighbors then update_opinion_in_interaction db eps alpha op message
    else op
  else update_opinion_in_non_interaction db Pinv op

/-- One opinion-changing event in an agent's life: an interaction with a
speaker expressing `message` perceived through transparency `alpha`, or a
diffusion (non-interaction) tick. -/
inductive AgentEvent (B : ℕ) where
  | interaction (message : Vec B) (alpha : ℚ)
  | diffusion

/-- Apply one `AgentEvent` to a density with the source's update rules. -/
def applyEvent {B : ℕ} (db eps : ℚ) (Pinv : Matrix (Fin B) (Fin B) ℚ) :
    AgentEvent B → Vec B → Vec B
  | .interaction message alpha, op =>
      update_opinion_in_interaction db eps alpha op message
  | .diffusion, op => update_opinion_in_non_interaction db Pinv op

/-- An agent's density after a sequence of events, starting from the
normalised initial density `normalizeOp db v0` built from the raw
(truncated-Gaussian) samples `v0` as in agent creation. -/
def opAfter {B : ℕ} (db eps : ℚ) (Pinv : Matrix (Fin B) (Fin B) ℚ)
    (v0 : Vec B) (evs : List (AgentEvent B)) : Vec B :=
  evs.foldl (fun o e => applyEvent db eps Pinv e o) (normalizeOp db v0)

/-- The normalisation invariant of the spec: `sum(weights) * db == 1`. -/
def integratesToOne {B : ℕ} (db : ℚ) (v : Vec B) : Prop :=
  sumV v * db = 1

lemma sumV_normalizeOp {B : ℕ} (db : ℚ) (v : Vec B) :
    sumV (normalizeOp db v) = sumV v / (sumV v * db) := by
  unfold sumV normalizeOp
  rw [← Finset.sum_div]
  rfl

lemma normalizeOp_integrates {B : ℕ} {db : ℚ} {v : Vec B}
    (hv : sumV v ≠ 0) (hdb : db ≠ 0) : integratesToOne db (normalizeOp db v) := by
  unfold integratesToOne
  rw [sumV_normalizeOp]
  field_simp

lemma sumV_ne_zero_of_integrates {B : ℕ} {db : ℚ} {v : Vec B}
    (h : integratesToOne db v) : sumV v ≠ 0 := by
  intro h0
  rw [integratesToOne, h0, zero_mul] at h
  exact zero_ne_one h

lemma normalizeOp_of_integrates {B : ℕ} {db : ℚ} {v : Vec B}
    (h : integratesToOne db v) : normalizeOp db v = v := by
  funext i
  unfold normalizeOp
  rw [h, div_one]

lemma interaction_integrates {B : ℕ} {db eps : ℚ} {op : Vec B}
    (message : Vec B) (alpha : ℚ) (hdb : 0 < db) (heps : 0 < eps)
    (hop : integratesToOne db op) :
    integratesToOne db (update_opinion_in_interaction db eps alpha op message) := by
  unfold update_opinion_in_interaction
  by_cases hc : sumV (posteriorOp db alpha op message) < eps
  · rw [if_pos hc]
    exact normalizeOp_integrates (sumV_ne_zero_of_integrates hop) (ne_of_gt hdb)
  · rw [if_neg hc]
    push_neg at hc
    exact normalizeOp_integrates (ne_of_gt (lt_of_lt_of_le heps hc)) (ne_of_gt hdb)

lemma diffusion_integrates {B : ℕ} {db : ℚ} {Pinv : Matrix (Fin B) (Fin B) ℚ}
    {op : Vec B} (hdb : 0 < db) (hnz : sumV (Pinv.mulVec op) ≠ 0) :
    integratesToOne db (update_opinion_in_non_interaction db Pinv op) :=
  normalizeOp_integrates hnz (ne_of_gt hdb)

lemma applyEvent_integrates {B : ℕ} {db eps : ℚ}
    {Pinv : Matrix (Fin B) (Fin B) ℚ} (hdb : 0 < db) (heps : 0 < eps)
    (hM : ∀ v : Vec B, integratesToOne db v → sumV (Pinv.mulVec v) ≠ 0)
    (e : AgentEvent B) {op : Vec B} (hop : integratesToOne db op) :
    integratesToOne db (applyEvent db eps Pinv e op) := by
  cases e with
  | interaction message alpha => exact interaction_integrates message alpha hdb heps hop
  | diffusion => exact diffusion_integrates hdb (hM op hop)

lemma foldl_applyEvent_integrates {B : ℕ} {db eps : ℚ}
    {Pinv : Matrix (Fin B) (Fin B) ℚ} (hdb : 0 < db) (heps : 0 < eps)
    (hM : ∀ v : Vec B, integratesToOne db v → sumV (Pinv.mulVec v) ≠ 0) :
    ∀ (evs : List (AgentEvent B)) (op : Vec B), integratesToOne db op →
      integratesToOne db (evs.foldl (fun o e => applyEvent db eps Pinv e o) op) := by
  intro evs
  induction evs with
  | nil => intro op hop; exact hop
  | cons e rest ih =>
      intro op hop
      rw [List.foldl_cons]
      exact ih _ (applyEvent_integrates hdb heps hM e hop)

/-- C2: in exact arithmetic, every agent density integrates to one (total
weight times `db` equals `1`) after initialisation and after every
interaction or diffusion update along any run, given that the raw initial
sample has nonzero weight and that the stored propagator never annihilates
the total weight of a normalised density (true in particular of the
identity propagator arising at `kappa = 0`). -/
theorem belief_density_integrates_to_one {B : ℕ} (db eps : ℚ)
    (Pinv : Matrix (Fin B) (Fin B) ℚ) (v0 : Vec B)
    (hdb : 0 < db) (heps : 0 < eps)
    (hM : ∀ v : Vec B, integratesToOne db v → sumV (Pinv.mulVec v) ≠ 0)
    (hv0 : sumV v0 ≠ 0) :
    ∀ evs : List (AgentEvent B), integratesToOne db (opAfter db eps Pinv v0 evs) := by
  intro evs
  unfold opAfter
  exact foldl_applyEvent_integrates hdb heps hM evs _
    (normalizeOp_integrates hv0 (ne_of_gt hdb))

lemma constOne_integrates : integratesToOne 1 (fun _ : Fin 1 => (1:ℚ)) := by
  simp [integratesToOne, sumV]

lemma constOne_sum_ne_zero : sumV (fun _ : Fin 1 => (1:ℚ)) ≠ 0 :=
  sumV_ne_zero_of_integrates (by simpa using constOne_integrates)

/-- Witness for `belief_density_integrates_to_one` at `B = 1`, `db = eps = 1`,
identity propagator, constant initial sample, one diffusion event. -/
theorem belief_density_integrates_witness :
    ((0:ℚ) < 1 ∧ (0:ℚ) < 1 ∧
      (∀ v : Vec 1, integratesToOne 1 v →
        sumV ((1 : Matrix (Fin 1) (Fin 1) ℚ).mulVec v) ≠ 0) ∧
      sumV (fun _ : Fin 1 => (1:ℚ)) ≠ 0) ∧
    integratesToOne 1 (opAfter 1 1 1 (fun _ : Fin 1 => (1:ℚ)) [AgentEvent.diffusion]) := by
  have hM : ∀ v : Vec 1, integratesToOne 1 v →
      sumV ((1 : Matrix (Fin 1) (Fin 1) ℚ).mulVec v) ≠ 0 := by
    intro v hv
    rw [Matrix.one_mulVec]
    exact sumV_ne_zero_of_integrates hv
  exact ⟨⟨one_pos, one_pos, hM, constOne_sum_ne_zero⟩,
    belief_density_integrates_to_one 1 1 1 (fun _ => 1) one_pos one_pos hM
      constOne_sum_ne_zero [AgentEvent.diffusion]⟩

/-- C4: whenever the unnormalised posterior has total weight below the
near-zero tolerance `eps`, the interaction update is total (no crash) and
returns the receiving agent's density unchanged; in particular this happens
with `alpha = 1` and disjoint-support densities. -/
theorem degenerate_posterior_keeps_opinion {B : ℕ} (db eps alpha : ℚ)
    (op message : Vec B) (hdb : 0 < db) (hop : integratesToOne db op) :
    (sumV (posteriorOp db alpha op message) < eps →
      update_opinion_in_interaction db eps alpha op message = op) ∧
    (alpha = 1 → (∀ i, op i = 0 ∨ message i = 0) →
      0 < eps → update_opinion_in_interaction db eps alpha op message = op) := by
  constructor
  · intro hlow
    unfold update_opinion_in_interaction
    rw [if_pos hlow]
    exact normalizeOp_of_integrates hop
  · intro ha hdisj heps
    have hzero : sumV (posteriorOp db alpha op message) = 0 := by
      unfold sumV
      apply Finset.sum_eq_zero
      intro i _
      unfold posteriorOp perceivedMessage
      rcases hdisj i with h | h
      · rw [h, zero_mul]
      · rw [ha, h]
        ring
    have hlow : sumV (posteriorOp db alpha op message) < eps := by
      rw [hzero]; exact heps
    unfold update_opinion_in_interaction
    rw [if_pos hlow]
    exact normalizeOp_of_integrates hop

/-- Witness for `degenerate_posterior_keeps_opinion`: `B = 1`, unit density
against a zero message with `alpha = 1`. -/
theorem degenerate_posterior_witness :
    ((0:ℚ) < 1 ∧ integratesToOne 1 (fun _ : Fin 1 => (1:ℚ)) ∧
      (∀ i : Fin 1, (fun _ : Fin 1 => (1:ℚ)) i = 0 ∨ (fun _ : Fin 1 => (0:ℚ)) i = 0)) ∧
    update_opinion_in_interaction 1 1 1 (fun _ : Fin 1 => (1:ℚ)) (fun _ => 0) =
      (fun _ : Fin 1 => (1:ℚ)) := by
  refine ⟨⟨one_pos, constOne_integrates, fun i => Or.inr rfl⟩, ?_⟩
  exact (degenerate_posterior_keeps_opinion 1 1 1 (fun _ => 1) (fun _ => 0)
    one_pos constOne_integrates).2 rfl (fun i => Or.inr rfl) one_pos

lemma mat_heat_equation_kappa_zero (B : ℕ) (db : ℚ) :
    mat_heat_equation B 0 db = 1 := by
  ext i j
  simp [mat_heat_equation, Matrix.one_apply]

/-- C5: with `communication_frequency = 0` every tick takes the diffusion
branch (since uniform draws are nonnegative), and with `kappa = 0` the
heat-equation system matrix is the identity, so any propagator satisfying
the defining inverse property is the identity and the agent's density is
unchanged after any number of ticks. -/
theorem diffusion_only_leaves_density_unchanged {B : ℕ}
    (db eps commf alpha kappa : ℚ) (Pinv : Matrix (Fin B) (Fin B) ℚ)
    (op message : Vec B) (hasNbs : Bool)
    (hk : kappa = 0) (hcommf : commf = 0)
    (hP : mat_heat_equation B kappa db * Pinv = 1)
    (hop : integratesToOne db op) :
    ∀ coins : List ℚ, (∀ c ∈ coins, 0 ≤ c) →
      coins.foldl (fun o c => agentStep db eps commf alpha Pinv c hasNbs message o)
        op = op := by
  have hPinv : Pinv = 1 := by
    rw [hk, mat_heat_equation_kappa_zero, one_mul] at hP
    exact hP
  have hstep : ∀ c : ℚ, 0 ≤ c →
      agentStep db eps commf alpha Pinv c hasNbs message op = op := by
    intro c hc
    unfold agentStep
    rw [hcommf, if_neg (not_lt.mpr hc), hPinv]
    unfold update_opinion_in_non_interaction
    rw [Matrix.one_mulVec]
    exact normalizeOp_of_integrates hop
  intro coins hcoins
  induction coins with
  | nil => rfl
  | cons c rest ih =>
      rw [List.foldl_cons, hstep c (hcoins c (List.mem_cons_self c rest))]
      exact ih (fun x hx => hcoins x (List.mem_cons_of_mem c hx))

/-- Witness for `diffusion_only_leaves_density_unchanged`: `B = 1`,
`kappa = 0`, `communication_frequency = 0`, identity propagator, one tick. -/
theorem diffusion_only_witness :
    ((0:ℚ) = 0 ∧ mat_heat_equation 1 (0:ℚ) 1 * 1 = 1 ∧
      integratesToOne 1 (fun _ : Fin 1 => (1:ℚ)) ∧ (∀ c ∈ [(0:ℚ)], 0 ≤ c)) ∧
    List.foldl (fun o c => agentStep 1 1 0 0 1 c true (fun _ : Fin 1 => (0:ℚ)) o)
      (fun _ : Fin 1 => (1:ℚ)) [(0:ℚ)] = (fun _ : Fin 1 => (1:ℚ)) := by
  have hP : mat_heat_equation 1 (0:ℚ) 1 * 1 = 1 := by
    rw [mat_heat_equation_kappa_zero, one_mul]
  have hc : ∀ c ∈ [(0:ℚ)], 0 ≤ c := by
    intro c hcm
    rw [List.mem_singleton] at hcm
    rw [hcm]
  refine ⟨⟨rfl, hP, constOne_integrates, hc⟩, ?_⟩
  exact diffusion_only_leaves_density_unchanged 1 1 0 0 0 1 (fun _ => 1) (fun _ => 0)
    true rfl rfl hP constOne_integrates [0] hc

/-!
## The data-collection attributes and `OpinionModel.observe`

Python attributes are dynamically typed: `self.std_mean_ops` is created in
`OpinionModel.__init__` as the scalar `np.std(self.all_mean_ops["0"])`
(line 158), while `OpinionModel.observe` performs the dict-style item
assignment `self.std_mean_ops[str(self.time)] = ...` (line 188) and
`OpinionModel.step` re-assigns the scalar (line 178).  `save_batch` in
`batch_simulations.py` reads `m.std_mean_ops[str(t)]` as a dict.  A Python
value that is a float rejects item assignment with a `TypeError`, so the
attribute is modelled as a sum of the two shapes it is given in the source,
and item assignment on the scalar shape is the error path. -/
inductive PyVal where
  | num (x : ℚ)
  | table (entries : List (String × ℚ))
deriving DecidableEq

/-- Item assignment `v[key] = x` on a Python value: succeeds on a dict, raises `TypeError`
on a float. -/
def pySetItem (v : PyVal) (key : String) (x : ℚ) : Except String PyVal :=
  match v with
  | .num _ => .error "TypeError: float object does not support item assignment"
  | .table entries => .ok (.table (entries ++ [(key, x)]))

/-- The data-collection attributes of `OpinionModel` touched by `observe`. -/
structure DataCollect where
  avg_mean_ops : PyVal
  std_mean_ops : PyVal
deriving DecidableEq

/-- Lines 152-159 of `OpinionModel.__init__`: `avg_mean_ops` is created as
the dict with key `"0"`, while `std_mean_ops` is created as the scalar
`np.std(self.all_mean_ops["0"])` (the numeric inputs are abstract here
because their values are irrelevant to the attribute shapes). -/
def initDataCollect (avg0 std0 : ℚ) : DataCollect :=
  { avg_mean_ops := .table [("0", avg0)], std_mean_ops := .num std0 }

/-- Method `OpinionModel.observe` restricted to the two attributes it updates
first: `self.avg_mean_ops[str(self.time)] = np.mean(curr_mean_ops)` then
`self.std_mean_ops[str(self.time)] = np.std(curr_mean_ops)`; a `TypeError`
on either assignment aborts the method (and would propagate out of
`__init__` / `step`). -/
def observe (st : DataCollect) (timeKey : String) (meanVal stdVal : ℚ) :
    Except String DataCollect := do
  let avg2 ← pySetItem st.avg_mean_ops timeKey meanVal
  let std2 ← pySetItem st.std_mean_ops timeKey stdVal
  pure { avg_mean_ops := avg2, std_mean_ops := std2 }

/-- C1 (code bug): the very first `observe()` call, issued unconditionally
at the end of `OpinionModel.__init__` (time 0), fails with a `TypeError`,
because `__init__` stored the scalar `np.std(...)` in `std_mean_ops` and
`observe` item-assigns into it; no observation is ever recorded without
error (with agent-level reporting the method would additionally read the
never-initialised attribute `self.all_ops`). -/
theorem observe_raises_type_error (avg0 std0 meanVal stdVal : ℚ) :
    observe (initDataCollect avg0 std0) "0" meanVal stdVal =
      .error "TypeError: float object does not support item assignment" := rfl

/-!
## `OpinionModel.simulation` (consensus bookkeeping)

Lines 196-212 of `model.py`.  `self.step()` is abstracted by its effect on
the two quantities the loop body reads: `stds t` is the population
dispersion `self.std_mean_ops` recomputed by the `t`-th call to `step`
(`np.std([ag.mean_op ...])`, a scalar), and `means t` is the population
mean `np.mean(curr_mean_ops)` of the agent mean opinions after that call.
The loop index `t` of `for t in range(self.track_times[-1])` is the tick
label appended to `time_cons`. -/
structure SimState where
  time_cons : List ℕ
  consensus_time : Option ℕ
  consensus_mean : Option ℚ
  broke : Bool
  ticks : ℕ
deriving DecidableEq

/-- Threshold `self.sigma_threshold_consensus = 0.01` (the rational `1/100`,
written with `mkRat` so that it evaluates in the kernel). -/
def sigma_threshold_consensus : ℚ := mkRat 1 100

/-- Whether the dispersion recomputed by step `t` is below the consensus
threshold (`self.std_mean_ops < self.sigma_threshold_consensus`). -/
def qualTick (stds : ℕ → ℚ) (t : ℕ) : Bool :=
  decide (stds t < sigma_threshold_consensus)

/-- One iteration of the `for t in range(...)` loop in
`OpinionModel.simulation`: run `self.step()` (counted in `ticks`), append
`t` to `time_cons` when dispersion is below threshold, and once more than
20 consensus ticks have accumulated record `time_cons[0]` and the current
population mean, breaking out of the loop only when `agent_reporter` is
off.  A `broke` state models having left the loop. -/
def simulationStep (agent_reporter : Bool) (stds means : ℕ → ℚ)
    (s : SimState) (t : ℕ) : SimState :=
  if s.broke then s
  else
    let s0 : SimState := { s with ticks := s.ticks + 1 }
    let s1 : SimState :=
      if qualTick stds t then { s0 with time_cons := s0.time_cons ++ [t] } else s0
    if 20 < s1.time_cons.length then
      { s1 with consensus_time := s1.time_cons[0]?,
                consensus_mean := some (means t),
                broke := !agent_reporter }
    else s1

/-- The state of `OpinionModel.simulation` entering the loop:
`time_cons = []`, `consensus_time`/`consensus_mean` still `np.nan`. -/
def initSimState : SimState := ⟨[], none, none, false, 0⟩

/-- Method `OpinionModel.simulation`: the whole loop, `horizon = track_times[-1]`. -/
def simulation (horizon : ℕ) (agent_reporter : Bool) (stds means : ℕ → ℚ) :
    SimState :=
  (List.range horizon).foldl (simulationStep agent_reporter stds means) initSimState

/-- The ticks `t < n` whose dispersion is below the consensus threshold. -/
def qualList (n : ℕ) (stds : ℕ → ℚ) : List ℕ :=
  (List.range n).filter (qualTick stds)

lemma simulation_succ (n : ℕ) (rep : Bool) (stds means : ℕ → ℚ) :
    simulation (n + 1) rep stds means =
      simulationStep rep stds means (simulation n rep stds means) n := by
  unfold simulation
  rw [List.range_succ, List.foldl_append, List.foldl_cons, List.foldl_nil]

lemma qualList_succ (n : ℕ) (stds : ℕ → ℚ) :
    qualList (n + 1) stds =
      qualList n stds ++ (if qualTick stds n then [n] else []) := by
  unfold qualList
  rw [List.range_succ, List.filter_append, List.filter_singleton]
  cases h : qualTick stds n <;> simp [h]

lemma simulationStep_notbroke (rep : Bool) (stds means : ℕ → ℚ)
    (tc : List ℕ) (ct : Option ℕ) (cm : Option ℚ) (k t : ℕ) :
    simulationStep rep stds means ⟨tc, ct, cm, false, k⟩ t =
      (if 20 < (if qualTick stds t then tc ++ [t] else tc).length then
        (⟨if qualTick stds t then tc ++ [t] else tc,
          (if qualTick stds t then tc ++ [t] else tc)[0]?,
          some (means t), !rep, k + 1⟩ : SimState)
      else ⟨if qualTick stds t then tc ++ [t] else tc, ct, cm, false, k + 1⟩) := by
  unfold simulationStep
  cases qualTick stds t <;> simp

lemma simulationStep_broke (rep : Bool) (stds means : ℕ → ℚ)
    (s : SimState) (t : ℕ) (h : s.broke = true) :
    simulationStep rep stds means s t = s := by
  unfold simulationStep
  rw [if_pos h]

lemma simulation_char (rep : Bool) (stds means : ℕ → ℚ) : ∀ n : ℕ,
    ((qualList n stds).length ≤ 20 →
      simulation n rep stds means = ⟨qualList n stds, none, none, false, n⟩) ∧
    (21 ≤ (qualList n stds).length → rep = true →
      simulation n rep stds means =
        ⟨qualList n stds, (qualList n stds)[0]?, some (means (n - 1)), false, n⟩) ∧
    (21 ≤ (qualList n stds).length → rep = false →
      ∃ t21, (qualList n stds)[20]? = some t21 ∧
        simulation n rep stds means =
          ⟨(qualList n stds).take 21, (qualList n stds)[0]?, some (means t21),
            true, t21 + 1⟩) := by
  intro n
  induction n with
  | zero =>
      refine ⟨fun _ => rfl, fun h _ => ?_, fun h _ => ?_⟩ <;>
        simp [qualList] at h
  | succ n ih =>
      obtain ⟨ih1, ih2, ih3⟩ := ih
      rw [simulation_succ, qualList_succ]
      cases qt : qualTick stds n with
      | false =>
          simp only [Bool.false_eq_true, if_false, List.append_nil]
          by_cases h20 : (qualList n stds).length ≤ 20
          · rw [ih1 h20, simulationStep_notbroke, qt]
            simp only [Bool.false_eq_true, if_false]
            rw [if_neg (by omega)]
            refine ⟨fun _ => rfl, fun h _ => by omega, fun h _ => by omega⟩
          · push_neg at h20
            have h21 : 21 ≤ (qualList n stds).length := h20
            refine ⟨fun h => by omega, fun _ hrep => ?_, fun _ hrep => ?_⟩
            · rw [ih2 h21 hrep, simulationStep_notbroke, qt]
              simp only [Bool.false_eq_true, if_false]
              rw [if_pos (by omega)]
              simp [hrep]
            · obtain ⟨t21, ht21, hs⟩ := ih3 h21 hrep
              refine ⟨t21, ht21, ?_⟩
              rw [hs, simulationStep_broke]
              rfl
      | true =>
          simp only [if_true]
          by_cases h20 : (qualList n stds).length ≤ 20
          · rw [ih1 h20, simulationStep_notbroke, qt]
            simp only [if_true, List.length_append, List.length_singleton]
            by_cases hex : (qualList n stds).length = 20
            · rw [if_pos (by omega)]
              refine ⟨fun h => by simp at h; omega, fun _ hrep => ?_, fun _ hrep => ?_⟩
              · rw [hrep]
                simp
              · refine ⟨n, ?_, ?_⟩
                · rw [← hex]
                  exact List.getElem?_concat_length _ _
                · rw [hrep]
                  have hlen : (qualList n stds ++ [n]).length = 21 := by
                    simp [hex]
                  rw [List.take_of_length_le (le_of_eq hlen)]
                  simp
            · rw [if_neg (by omega)]
              refine ⟨fun _ => rfl, fun h _ => by simp at h; omega,
                fun h _ => by simp at h; omega⟩
          · push_neg at h20
            have h21 : 21 ≤ (qualList n stds).length := h20
            refine ⟨fun h => by simp at h; omega, fun _ hrep => ?_, fun _ hrep => ?_⟩
            · rw [ih2 h21 hrep, simulationStep_notbroke, qt]
              simp only [if_true]
              rw [if_pos (by simp; omega)]
              simp [hrep]
            · obtain ⟨t21, ht21, hs⟩ := ih3 h21 hrep
              refine ⟨t21, ?_, ?_⟩
              · rw [List.getElem?_append_left (by omega)]
                exact ht21
              · rw [hs, simulationStep_broke _ _ _ _ _ rfl]
                rw [List.take_append_of_le_length h21,
                  List.getElem?_append_left (by omega)]

/-- C3: once 21 (not necessarily contiguous) ticks with dispersion below
`0.01` have occurred within the horizon, the recorded `consensus_time` is
the first qualifying tick (`time_cons[0]`, the head of the qualifying-tick
list), never a later one, for both settings of `agent_reporter`. -/
theorem consensus_time_is_earliest_qualifying_tick
    (horizon : ℕ) (agent_reporter : Bool) (stds means : ℕ → ℚ)
    (h : 21 ≤ (qualList horizon stds).length) :
    (simulation horizon agent_reporter stds means).consensus_time =
      (qualList horizon stds)[0]? := by
  cases agent_reporter with
  | false =>
      obtain ⟨t21, _, hs⟩ := (simulation_char false stds means horizon).2.2 h rfl
      rw [hs]
  | true =>
      rw [(simulation_char true stds means horizon).2.1 h rfl]

/-- Witness for `consensus_time_is_earliest_qualifying_tick`: dispersion
constantly zero, horizon 21, agent reporting off. -/
theorem consensus_time_witness :
    21 ≤ (qualList 21 (fun _ => 0)).length ∧
    (simulation 21 false (fun _ => 0) (fun _ => 0)).consensus_time =
      (qualList 21 (fun _ => 0))[0]? :=
  ⟨by decide,
    consensus_time_is_earliest_qualifying_tick 21 false (fun _ => 0) (fun _ => 0)
      (by decide)⟩

/-- C9 counterexample: dispersion is below threshold from tick 0 on and the
population mean at tick `t` is `t`.  The consensus tick (first qualifying
tick) is 0, where the population mean is 0, yet the recorded
`consensus_mean` is 20, the population mean at the tick on which the 21st
qualifying tick accumulated — not the mean at the consensus tick. -/
theorem consensus_mean_not_at_consensus_tick :
    (simulation 22 false (fun _ => 0) (fun t => (t : ℚ))).consensus_time = some 0 ∧
    (simulation 22 false (fun _ => 0) (fun t => (t : ℚ))).consensus_mean = some 20 ∧
    (simulation 22 false (fun _ => 0) (fun t => (t : ℚ))).consensus_mean ≠
      some ((fun t : ℕ => (t : ℚ)) 0) := by
  refine ⟨by decide, by decide, by decide⟩

/-- C9 corrected: when 21 qualifying ticks have accumulated, the recorded
consensus mean is the population mean at the tick on which the 21st
qualifying tick occurs when agent-level reporting is disabled (the loop
breaks there), and the population mean at the last executed tick
(`horizon - 1`) when reporting is enabled (the assignment keeps being
overwritten every remaining tick). -/
theorem consensus_mean_is_mean_at_trigger_tick
    (horizon : ℕ) (stds means : ℕ → ℚ)
    (h : 21 ≤ (qualList horizon stds).length) :
    ((simulation horizon false stds means).consensus_mean =
      ((qualList horizon stds)[20]?).map means) ∧
    ((simulation horizon true stds means).consensus_mean =
      some (means (horizon - 1))) := by
  constructor
  · obtain ⟨t21, ht, hs⟩ := (simulation_char false stds means horizon).2.2 h rfl
    rw [hs, ht]
    rfl
  · rw [(simulation_char true stds means horizon).2.1 h rfl]

/-- Witness for `consensus_mean_is_mean_at_trigger_tick`: dispersion
constantly zero, population mean equal to the tick index, horizon 30. -/
theorem consensus_mean_witness :
    21 ≤ (qualList 30 (fun _ => 0)).length ∧
    ((simulation 30 false (fun _ => 0) (fun t => (t : ℚ))).consensus_mean =
      ((qualList 30 (fun _ => 0))[20]?).map (fun t : ℕ => (t : ℚ))) ∧
    ((simulation 30 true (fun _ => 0) (fun t => (t : ℚ))).consensus_mean =
      some ((fun t : ℕ => (t : ℚ)) (30 - 1))) :=
  ⟨by decide,
    (consensus_mean_is_mean_at_trigger_tick 30 (fun _ => 0) (fun t => (t : ℚ))
      (by decide)).1,
    (consensus_mean_is_mean_at_trigger_tick 30 (fun _ => 0) (fun t => (t : ℚ))
      (by decide)).2⟩

/-!
## `create_network.py`

Graphs are embedded as `networkx.Graph` behaves: an insertion-ordered node
list and an insertion-ordered list of undirected edges (each stored once,
in the orientation in which it was added; `add_edge` inserts missing
endpoints and ignores duplicates, `remove_edge` keeps the nodes).
`random.choice(l)` / `np.random.choice(l)` are modelled by an index draw
from the `pick` stream reduced modulo the list length; `random.random()` /
`np.random.random()` draws come from the `coin` stream.  Both streams are
consumed in program order through an explicit counter (the source uses two
seeded generators, `random` and `np.random`, both fully determined by the
model seed).  The unbounded rewiring `while` loops take fuel and return
`none` when it runs out, i.e. when the source loop would still be
spinning. -/
structure Graph where
  nodes : List ℕ
  edges : List (ℕ × ℕ)
deriving DecidableEq

def Graph.hasNode (G : Graph) (v : ℕ) : Bool := G.nodes.contains v

def Graph.addNode (G : Graph) (v : ℕ) : Graph :=
  if G.hasNode v then G else { G with nodes := G.nodes ++ [v] }

def Graph.hasEdge (G : Graph) (a b : ℕ) : Bool :=
  G.edges.contains (a, b) || G.edges.contains (b, a)

def Graph.addEdge (G : Graph) (a b : ℕ) : Graph :=
  let G1 := (G.addNode a).addNode b
  if G.hasEdge a b then G1 else { G1 with edges := G1.edges ++ [(a, b)] }

def Graph.removeEdge (G : Graph) (a b : ℕ) : Graph :=
  { G with edges := G.edges.filter (fun e => !((e == (a, b)) || (e == (b, a)))) }

/-- Degree `G.degree(u)`: incidences of `u` over the edge list (a self-loop would
count twice, as in networkx). -/
def Graph.degree (G : Graph) (u : ℕ) : ℕ :=
  G.edges.foldl
    (fun d e => d + (if e.1 = u then 1 else 0) + (if e.2 = u then 1 else 0)) 0

/-- Neighbours `list(G.neighbors(u))` read off the edge list. -/
def Graph.neighborsOf (G : Graph) (u : ℕ) : List ℕ :=
  G.edges.filterMap
    (fun e => if e.1 = u then some e.2 else if e.2 = u then some e.1 else none)

/-- Selection `random.choice(l)` with an abstract index draw `k`. -/
def pickFrom (l : List ℕ) (k : ℕ) : ℕ := l.getD (k % l.length) 0

def addEdgesList (G : Graph) (l : List (ℕ × ℕ)) : Graph :=
  l.foldl (fun g e => g.addEdge e.1 e.2) G

def addNodesList (G : Graph) (l : List ℕ) : Graph :=
  l.foldl Graph.addNode G

/-- Fold a fallible, counter-threaded graph action over a list,
short-circuiting on failure (fuel exhaustion in a retry loop). -/
def foldOpt {α : Type} (f : α → Graph → ℕ → Option (Graph × ℕ)) :
    List α → Option (Graph × ℕ) → Option (Graph × ℕ)
  | [], acc => acc
  | a :: l, acc => foldOpt f l (acc.bind (fun gc => f a gc.1 gc.2))

/-- The rewiring retry loop shared by the two passes of
`watts_strogatz_graph_UnevenK` (and by networkx's own implementation):

    w = random.choice(nodes)
    while w == u or G.has_edge(u, w):
        w = random.choice(nodes)
        if G.degree(u) >= n-1:
            break
    else:
        G.remove_edge(u,v)
        G.add_edge(u,w)

`w` is the current candidate (the initial draw happens at the call site);
when the candidate is valid the edge `(u,v)` is rewired to `(u,w)`, and
the degree escape abandons the attempt with the graph unchanged. -/
def rewireRetry (n : ℕ) (pick : ℕ → ℕ) (u v : ℕ) :
    ℕ → ℕ → ℕ → Graph → Option (Graph × ℕ)
  | fuel, w, c, G =>
    if w = u ∨ G.hasEdge u w = true then
      match fuel with
      | 0 => none
      | fuel2 + 1 =>
          let w2 := pickFrom (List.range n) (pick c)
          if n - 1 ≤ G.degree u then some (G, c + 1)
          else rewireRetry n pick u v fuel2 w2 (c + 1) G
    else some ((G.removeEdge u v).addEdge u w, c)

/-- The ring lattice of `watts_strogatz_graph(_UnevenK)`: for
`j in range(1, k // 2 + 1)`, edges `zip(nodes, nodes[j:] + nodes[:j])`. -/
def wsLattice (n k : ℕ) : Graph :=
  (List.range (k / 2)).foldl
    (fun G j1 =>
      (List.range n).foldl (fun G2 m => G2.addEdge m ((m + (j1 + 1)) % n)) G)
    { nodes := [], edges := [] }

/-- One node of the NEW block of `watts_strogatz_graph_UnevenK` (odd `k`):
with probability `0.5` add the edge to the `k//2+1` neighbour, then with
probability `p` rewire it through the retry loop. -/
def wsOddItem (n k : ℕ) (p : ℚ) (coin : ℕ → ℚ) (pick : ℕ → ℕ) (fuel : ℕ)
    (m : ℕ) (G : Graph) (c : ℕ) : Option (Graph × ℕ) :=
  if coin c < mkRat 1 2 then
    let oddtarget := (m + k / 2 + 1) % n
    let G1 := G.addEdge m oddtarget
    if coin (c + 1) < p then
      let w0 := pickFrom (List.range n) (pick (c + 2))
      rewireRetry n pick m oddtarget fuel w0 (c + 3) G1
    else some (G1, c + 2)
  else some (G, c + 1)

/-- The `(u, v)` pairs visited by the standard rewiring pass, in program
order: outer loop over neighbour distance `j`, inner loop in node order. -/
def wsPassPairs (n k : ℕ) : List (ℕ × ℕ) :=
  (List.range (k / 2)).flatMap
    (fun j1 => (List.range n).map (fun u => (u, (u + (j1 + 1)) % n)))

/-- One edge of the standard rewiring pass: with probability `p`, draw an
initial candidate and run the retry loop. -/
def wsRewireItem (n : ℕ) (p : ℚ) (coin : ℕ → ℚ) (pick : ℕ → ℕ) (fuel : ℕ)
    (uv : ℕ × ℕ) (G : Graph) (c : ℕ) : Option (Graph × ℕ) :=
  if coin c < p then
    let w0 := pickFrom (List.range n) (pick (c + 1))
    rewireRetry n pick uv.1 uv.2 fuel w0 (c + 2) G
  else some (G, c + 1)

/-- Generator `watts_strogatz_graph_UnevenK(n, k, p)`: raise (`none`) when `k >= n`,
else lattice, NEW block when `k` is odd, then the standard rewiring pass. -/
def watts_strogatz_graph_UnevenK (n k : ℕ) (p : ℚ) (coin : ℕ → ℚ)
    (pick : ℕ → ℕ) (fuel c : ℕ) : Option (Graph × ℕ) :=
  if n ≤ k then none
  else
    let afterOdd : Option (Graph × ℕ) :=
      if k % 2 = 1 then
        foldOpt (wsOddItem n k p coin pick fuel) (List.range n)
          (some (wsLattice n k, c))
      else some (wsLattice n k, c)
    foldOpt (wsRewireItem n p coin pick fuel) (wsPassPairs n k) afterOdd

/-- Generator `nx.watts_strogatz_graph(n, k, p)`, used on the even-degree branch of
`create_withinAndBetweenGroup_network`; per the docstring of
`watts_strogatz_graph_UnevenK` ("The code is a copy from the
networkx.watts_strogatz_graph function extended by code between NEW and
END NEW"), it is that function without the NEW block. -/
def watts_strogatz_graph (n k : ℕ) (p : ℚ) (coin : ℕ → ℚ)
    (pick : ℕ → ℕ) (fuel c : ℕ) : Option (Graph × ℕ) :=
  if n ≤ k then none
  else foldOpt (wsRewireItem n p coin pick fuel) (wsPassPairs n k)
    (some (wsLattice n k, c))

/-- Relabelling `nx.relabel_nodes(G, mapping)` with a total relabelling function. -/
def relabel_nodes (G : Graph) (f : ℕ → ℕ) : Graph :=
  { nodes := G.nodes.map f, edges := G.edges.map (fun e => (f e.1, f e.2)) }

/-- Offsets `[0, 1, -1, 2, -2, 3, -3, 4, -4]`: the fixed offset list of
`which_betweengroup_nodes_to_connect` before the `[:int(k_out)]` slice. -/
def offsetPattern : List ℤ := [0, 1, -1, 2, -2, 3, -3, 4, -4]

/-- The between-group endpoint for `edgefrom` and offset `i`:

    edgeto = edgefrom + len(G1.nodes) + i
    if edgeto >= n: edgeto -= len(G1.nodes)
    if edgeto < len(G1.nodes): edgeto += len(G1.nodes)

computed over ℤ (Python integers) and converted to the node index; for the
configurations covered by the theorems below the result is nonnegative. -/
def interTarget (n len1 edgefrom : ℕ) (i : ℤ) : ℕ :=
  let e0 : ℤ := edgefrom + len1 + i
  let e1 : ℤ := if (n : ℤ) ≤ e0 then e0 - len1 else e0
  let e2 : ℤ := if e1 < (len1 : ℤ) then e1 + len1 else e1
  e2.toNat

/-- The between-group rewiring retry loop (`create_network.py` lines
40-50): pick a side at random, redraw that endpoint uniformly from the
corresponding group's node list, and accept as soon as the new edge is
neither a self-loop nor a duplicate.  There is no degree-based escape. -/
def interRetry (coin : ℕ → ℚ) (pick : ℕ → ℕ)
    (G1nodes G2nodes : List ℕ) (edgefrom edgeto : ℕ) :
    ℕ → Graph → ℕ → Option (Graph × ℕ)
  | 0, _, _ => none
  | fuel + 1, G, c =>
      let branch1 := coin c < mkRat 1 2
      let ef := if branch1 then edgefrom else pickFrom G1nodes (pick (c + 1))
      let et := if branch1 then pickFrom G2nodes (pick (c + 1)) else edgeto
      if ef ≠ et ∧ G.hasEdge ef et = false then some (G.addEdge ef et, c + 2)
      else interRetry coin pick G1nodes G2nodes edgefrom edgeto fuel G (c + 2)

/-- One `(edgefrom, i)` step of the between-group linking loop: add the
positional edge, then with probability `p` remove it and run the
between-group retry loop. -/
def interItem (n len1 : ℕ) (p : ℚ) (coin : ℕ → ℚ) (pick : ℕ → ℕ) (fuel : ℕ)
    (G1nodes G2nodes : List ℕ) (ei : ℕ × ℤ) (G : Graph) (c : ℕ) :
    Option (Graph × ℕ) :=
  let edgeto := interTarget n len1 ei.1 ei.2
  let G1 := G.addEdge ei.1 edgeto
  if coin c < p then
    interRetry coin pick G1nodes G2nodes ei.1 edgeto fuel
      (G1.removeEdge ei.1 edgeto) (c + 1)
  else some (G1, c + 1)

/-- Builder `create_withinAndBetweenGroup_network(n, k_in, k_out, p, seed)`.
Asserts `n` even; builds the two within-group graphs (even `k_in` and
`k_out` use networkx's generator, otherwise the UnevenK variant; the
source decorrelates them with `seed` and `seed+100`, here the entropy
streams simply continue), relabels the second by list position shifted by
`len(G1.nodes)`, merges edges and nodes, then runs the between-group
linking/rewiring loop.  Returns the graph and the positional group labels
`dict(enumerate([0]*len(G1.nodes) + [1]*len(G2.nodes)))` (the spring
layout is visualization-only and not modelled). -/
def create_withinAndBetweenGroup_network (n k_in k_out : ℕ) (p : ℚ)
    (coin : ℕ → ℚ) (pick : ℕ → ℕ) (fuel c : ℕ) :
    Option (Graph × List ℕ × ℕ) :=
  if n % 2 ≠ 0 then none
  else
    let n2 := n / 2
    let ws := fun (c0 : ℕ) =>
      if k_in % 2 = 0 ∧ k_out % 2 = 0 then
        watts_strogatz_graph n2 k_in p coin pick fuel c0
      else watts_strogatz_graph_UnevenK n2 k_in p coin pick fuel c0
    (ws c).bind fun g1c =>
      (ws g1c.2).bind fun g2c =>
        let G1 := g1c.1
        let G2 := relabel_nodes g2c.1
          (fun v => G1.nodes.length + g2c.1.nodes.indexOf v)
        let Gbase := addNodesList
          (addEdgesList { nodes := [], edges := [] } (G1.edges ++ G2.edges))
          (G1.nodes ++ G2.nodes)
        let interPairs := (List.range G1.nodes.length).flatMap
          (fun e => (offsetPattern.take k_out).map (fun i => (e, i)))
        (foldOpt (interItem n G1.nodes.length p coin pick fuel G1.nodes G2.nodes)
            interPairs (some (Gbase, g2c.2))).map
          fun gc =>
            (gc.1,
             List.replicate G1.nodes.length 0 ++ List.replicate G2.nodes.length 1,
             gc.2)

/-- Termination of `create_withinAndBetweenGroup_network` on a given
entropy stream: some fuel suffices for every rewiring retry loop
encountered during the run. -/
def networkBuildTerminates (n k_in k_out : ℕ) (p : ℚ) (coin : ℕ → ℚ)
    (pick : ℕ → ℕ) (c : ℕ) : Prop :=
  ∃ fuel r, create_withinAndBetweenGroup_network n k_in k_out p coin pick fuel c
    = some r

lemma foldOpt_none {α : Type} (f : α → Graph → ℕ → Option (Graph × ℕ)) :
    ∀ l : List α, foldOpt f l none = none := by
  intro l
  induction l with
  | nil => rfl
  | cons a l ih =>
      unfold foldOpt
      rw [Option.none_bind]
      exact ih

lemma cex_retry : ∀ fuel c : ℕ,
    rewireRetry 4 (fun _ => 0) 0 1 fuel 0 c (wsLattice 4 2) = none := by
  intro fuel
  induction fuel with
  | zero =>
      intro c
      unfold rewireRetry
      rw [if_pos (Or.inl rfl)]
  | succ f ih =>
      intro c
      unfold rewireRetry
      rw [if_pos (Or.inl rfl)]
      show (if 4 - 1 ≤ (wsLattice 4 2).degree 0 then some (wsLattice 4 2, c + 1)
        else rewireRetry 4 (fun _ => 0) 0 1 f (pickFrom (List.range 4) 0) (c + 1)
          (wsLattice 4 2)) = none
      have hdeg : ¬ (4 - 1 ≤ (wsLattice 4 2).degree 0) := by decide
      rw [if_neg hdeg]
      exact ih (c + 1)

lemma cex_ws : ∀ fuel c : ℕ,
    watts_strogatz_graph 4 2 1 (fun _ => 0) (fun _ => 0) fuel c = none := by
  intro fuel c
  unfold watts_strogatz_graph
  rw [if_neg (by norm_num)]
  have hpairs : wsPassPairs 4 2 = [(0, 1), (1, 2), (2, 3), (3, 0)] := rfl
  rw [hpairs]
  have h1 : wsRewireItem 4 1 (fun _ => 0) (fun _ => 0) fuel (0, 1)
      (wsLattice 4 2) c = none := by
    unfold wsRewireItem
    rw [if_pos (by norm_num)]
    have hp : pickFrom (List.range 4) ((fun _ => 0) (c + 1)) = 0 := rfl
    rw [hp]
    exact cex_retry fuel (c + 2)
  unfold foldOpt
  rw [Option.some_bind, h1]
  exact foldOpt_none _ _

/-- C6 counterexample: with `n = 8`, `k_in = k_out = 2`, `p_rewire = 1` and
an entropy stream whose index draws always return node `0`, the very first
intra-group rewiring attempt (origin `u = 0`, candidate `w = 0 = u`, degree
2 < n-1 so the escape never fires) redraws forever: no amount of fuel makes
the construction return, so the retry loop does not terminate on every
rewiring attempt. -/
theorem rewire_retry_not_always_terminating :
    ¬ networkBuildTerminates 8 2 2 1 (fun _ => 0) (fun _ => 0) 0 := by
  rintro ⟨fuel, r, hr⟩
  have : create_withinAndBetweenGroup_network 8 2 2 1
      (fun _ => 0) (fun _ => 0) fuel 0 = none := by
    unfold create_withinAndBetweenGroup_network
    rw [if_neg (by norm_num)]
    show (watts_strogatz_graph 4 2 1 (fun _ => 0) (fun _ => 0) fuel 0).bind _ = none
    rw [cex_ws fuel 0, Option.none_bind]
  rw [this] at hr
  exact Option.noConfusion hr

/-- C6 corrected: the two intra-group retry loops (odd-`k` block and
standard pass of `watts_strogatz_graph_UnevenK`) accept the first candidate
that is neither the origin nor a current neighbour, and abandon the
attempt — graph unchanged, original edge intact — right after a redraw once
the origin's degree is at least `n - 1`; the between-group retry loop of
`create_withinAndBetweenGroup_network` has no degree escape and returns
exactly when a draw produces a non-self, non-duplicate candidate (such as
redrawing the just-removed endpoint), so it terminates only on streams that
eventually produce one. -/
theorem rewire_retry_behavior :
    (∀ (n : ℕ) (pick : ℕ → ℕ) (u v fuel w c : ℕ) (G : Graph),
      n - 1 ≤ G.degree u → (w = u ∨ G.hasEdge u w = true) →
      rewireRetry n pick u v (fuel + 1) w c G = some (G, c + 1)) ∧
    (∀ (n : ℕ) (pick : ℕ → ℕ) (u v fuel w c : ℕ) (G : Graph),
      ¬ (w = u ∨ G.hasEdge u w = true) →
      rewireRetry n pick u v fuel w c G =
        some ((G.removeEdge u v).addEdge u w, c)) ∧
    (∀ (coin : ℕ → ℚ) (pick : ℕ → ℕ) (G1nodes G2nodes : List ℕ)
      (edgefrom edgeto fuel c : ℕ) (G : Graph),
      coin c < mkRat 1 2 →
      edgefrom ≠ pickFrom G2nodes (pick (c + 1)) →
      G.hasEdge edgefrom (pickFrom G2nodes (pick (c + 1))) = false →
      interRetry coin pick G1nodes G2nodes edgefrom edgeto (fuel + 1) G c =
        some (G.addEdge edgefrom (pickFrom G2nodes (pick (c + 1))), c + 2)) := by
  refine ⟨?_, ?_, ?_⟩
  · intro n pick u v fuel w c G hdeg hw
    unfold rewireRetry
    rw [if_pos hw]
    show (if n - 1 ≤ G.degree u then some (G, c + 1)
      else rewireRetry n pick u v fuel (pickFrom (List.range n) (pick c)) (c + 1) G)
      = some (G, c + 1)
    rw [if_pos hdeg]
  · intro n pick u v fuel w c G hw
    unfold rewireRetry
    rw [if_neg hw]
  · intro coin pick G1nodes G2nodes edgefrom edgeto fuel c G hb hne hdup
    unfold interRetry
    show (if (if coin c < mkRat 1 2 then edgefrom else pickFrom G1nodes (pick (c + 1)))
          ≠ (if coin c < mkRat 1 2 then pickFrom G2nodes (pick (c + 1)) else edgeto) ∧
          G.hasEdge
            (if coin c < mkRat 1 2 then edgefrom else pickFrom G1nodes (pick (c + 1)))
            (if coin c < mkRat 1 2 then pickFrom G2nodes (pick (c + 1)) else edgeto)
            = false then
        some (G.addEdge
          (if coin c < mkRat 1 2 then edgefrom else pickFrom G1nodes (pick (c + 1)))
          (if coin c < mkRat 1 2 then pickFrom G2nodes (pick (c + 1)) else edgeto),
          c + 2)
      else interRetry coin pick G1nodes G2nodes edgefrom edgeto fuel G (c + 2))
      = some (G.addEdge edgefrom (pickFrom G2nodes (pick (c + 1))), c + 2)
    simp only [if_pos hb]
    rw [if_pos ⟨hne, hdup⟩]

/-- Witness for `rewire_retry_behavior`: a two-node graph with its single
edge for the two intra-group clauses, and a first-draw acceptance for the
between-group clause. -/
theorem rewire_retry_behavior_witness :
    ((2 : ℕ) - 1 ≤ (Graph.mk [0, 1] [(0, 1)]).degree 0 ∧
      ((0 : ℕ) = 0 ∨ (Graph.mk [0, 1] [(0, 1)]).hasEdge 0 0 = true) ∧
      ¬ ((2 : ℕ) = 0 ∨ (Graph.mk [0, 1] [(0, 1)]).hasEdge 0 2 = true) ∧
      (fun _ : ℕ => (0 : ℚ)) 0 < mkRat 1 2 ∧
      (0 : ℕ) ≠ pickFrom [3] ((fun _ : ℕ => (0 : ℕ)) 1) ∧
      (Graph.mk [0, 1] [(0, 1)]).hasEdge 0 (pickFrom [3] ((fun _ : ℕ => (0 : ℕ)) 1))
        = false) ∧
    rewireRetry 2 (fun _ => 0) 0 1 (0 + 1) 0 0 (Graph.mk [0, 1] [(0, 1)]) =
      some (Graph.mk [0, 1] [(0, 1)], 0 + 1) ∧
    rewireRetry 2 (fun _ => 0) 0 1 0 2 0 (Graph.mk [0, 1] [(0, 1)]) =
      some (((Graph.mk [0, 1] [(0, 1)]).removeEdge 0 1).addEdge 0 2, 0) ∧
    interRetry (fun _ => 0) (fun _ => 0) [0, 1] [3] 0 3 (0 + 1)
        (Graph.mk [0, 1] [(0, 1)]) 0 =
      some ((Graph.mk [0, 1] [(0, 1)]).addEdge 0
        (pickFrom [3] ((fun _ : ℕ => (0 : ℕ)) 1)), 0 + 2) :=
  ⟨⟨by decide, by decide, by decide, by decide, by decide, by decide⟩,
    rewire_retry_behavior.1 2 (fun _ => 0) 0 1 0 0 0 (Graph.mk [0, 1] [(0, 1)])
      (by decide) (by decide),
    rewire_retry_behavior.2.1 2 (fun _ => 0) 0 1 0 2 0 (Graph.mk [0, 1] [(0, 1)])
      (by decide),
    rewire_retry_behavior.2.2 (fun _ => 0) (fun _ => 0) [0, 1] [3] 0 3 0 0
      (Graph.mk [0, 1] [(0, 1)]) (by decide) (by decide) (by decide)⟩

lemma hasNode_iff (G : Graph) (v : ℕ) : G.hasNode v = true ↔ v ∈ G.nodes := by
  unfold Graph.hasNode
  exact List.elem_iff

lemma addNode_nodes_of_mem {G : Graph} {v : ℕ} (h : v ∈ G.nodes) :
    G.addNode v = G := by
  unfold Graph.addNode
  rw [if_pos ((hasNode_iff G v).mpr h)]

lemma addNode_nodes_of_not_mem {G : Graph} {v : ℕ} (h : v ∉ G.nodes) :
    (G.addNode v).nodes = G.nodes ++ [v] := by
  unfold Graph.addNode
  rw [if_neg (fun hc => h ((hasNode_iff G v).mp hc))]

lemma addNode_edges (G : Graph) (v : ℕ) : (G.addNode v).edges = G.edges := by
  unfold Graph.addNode
  split <;> rfl

lemma mem_addNode_nodes {G : Graph} {v x : ℕ} :
    x ∈ (G.addNode v).nodes ↔ x ∈ G.nodes ∨ x = v := by
  by_cases h : v ∈ G.nodes
  · rw [addNode_nodes_of_mem h]
    constructor
    · exact fun hx => Or.inl hx
    · rintro (hx | rfl)
      · exact hx
      · exact h
  · rw [addNode_nodes_of_not_mem h, List.mem_append, List.mem_singleton]

lemma addEdge_nodes (G : Graph) (a b : ℕ) :
    (G.addEdge a b).nodes = ((G.addNode a).addNode b).nodes := by
  unfold Graph.addEdge
  split <;> rfl

lemma mem_addEdge_nodes {G : Graph} {a b x : ℕ} :
    x ∈ (G.addEdge a b).nodes ↔ x ∈ G.nodes ∨ x = a ∨ x = b := by
  rw [addEdge_nodes, mem_addNode_nodes, mem_addNode_nodes, or_assoc]

lemma addEdge_nodes_of_mem {G : Graph} {a b : ℕ}
    (ha : a ∈ G.nodes) (hb : b ∈ G.nodes) : (G.addEdge a b).nodes = G.nodes := by
  rw [addEdge_nodes, addNode_nodes_of_mem ha, addNode_nodes_of_mem hb]

lemma addEdge_edges (G : Graph) (a b : ℕ) :
    (G.addEdge a b).edges =
      if G.hasEdge a b = true then G.edges else G.edges ++ [(a, b)] := by
  have hexp : (G.addEdge a b).edges =
      (if G.hasEdge a b = true then ((G.addNode a).addNode b)
        else { nodes := ((G.addNode a).addNode b).nodes,
               edges := ((G.addNode a).addNode b).edges ++ [(a, b)] }).edges := rfl
  rw [hexp]
  by_cases hc : G.hasEdge a b = true
  · rw [if_pos hc, if_pos hc, addNode_edges, addNode_edges]
  · rw [if_neg hc, if_neg hc]
    show ((G.addNode a).addNode b).edges ++ [(a, b)] = G.edges ++ [(a, b)]
    rw [addNode_edges, addNode_edges]

lemma mem_addEdge_edges {G : Graph} {a b : ℕ} {e : ℕ × ℕ}
    (h : e ∈ (G.addEdge a b).edges) : e ∈ G.edges ∨ e = (a, b) := by
  rw [addEdge_edges] at h
  by_cases hc : G.hasEdge a b = true
  · rw [if_pos hc] at h
    exact Or.inl h
  · rw [if_neg hc] at h
    simp only [List.mem_append, List.mem_singleton] at h
    exact h

lemma removeEdge_nodes (G : Graph) (a b : ℕ) :
    (G.removeEdge a b).nodes = G.nodes := rfl

lemma mem_removeEdge_edges {G : Graph} {a b : ℕ} {e : ℕ × ℕ}
    (h : e ∈ (G.removeEdge a b).edges) : e ∈ G.edges := by
  unfold Graph.removeEdge at h
  exact List.mem_of_mem_filter h

/-- The invariant maintained inside the Watts-Strogatz generators on `m`
nodes: the node list is exactly `range m` (in order) and every edge stays
inside it. -/
def WSInv (m : ℕ) (G : Graph) : Prop :=
  G.nodes = List.range m ∧ ∀ e ∈ G.edges, e.1 < m ∧ e.2 < m

lemma WSInv_addEdge {m : ℕ} {G : Graph} {a b : ℕ}
    (h : WSInv m G) (ha : a < m) (hb : b < m) : WSInv m (G.addEdge a b) := by
  obtain ⟨hn, he⟩ := h
  constructor
  · rw [addEdge_nodes_of_mem (by rw [hn]; exact List.mem_range.mpr ha)
      (by rw [hn]; exact List.mem_range.mpr hb), hn]
  · intro e hmem
    rcases mem_addEdge_edges hmem with h2 | rfl
    · exact he e h2
    · exact ⟨ha, hb⟩

lemma WSInv_removeEdge {m : ℕ} {G : Graph} (h : WSInv m G) (a b : ℕ) :
    WSInv m (G.removeEdge a b) := by
  obtain ⟨hn, he⟩ := h
  exact ⟨by rw [removeEdge_nodes, hn], fun e hmem => he e (mem_removeEdge_edges hmem)⟩

lemma pickFrom_lt {m : ℕ} {l : List ℕ} (hm : 0 < m)
    (hl : ∀ x ∈ l, x < m) (k : ℕ) : pickFrom l k < m := by
  unfold pickFrom
  rw [List.getD_eq_getElem?_getD]
  cases h : l[k % l.length]? with
  | none => simpa using hm
  | some x =>
      have hx : x ∈ l := List.getElem?_mem h
      simpa [h] using hl x hx

lemma pickFrom_range_lt {m : ℕ} (hm : 0 < m) (k : ℕ) :
    pickFrom (List.range m) k < m :=
  pickFrom_lt hm (fun x hx => List.mem_range.mp hx) k

lemma rewireRetry_WSInv {m : ℕ} (pick : ℕ → ℕ) {u v : ℕ} (hu : u < m) :
    ∀ (fuel w c : ℕ) (G G2 : Graph) (c2 : ℕ), w < m → WSInv m G →
      rewireRetry m pick u v fuel w c G = some (G2, c2) → WSInv m G2 := by
  intro fuel
  induction fuel with
  | zero =>
      intro w c G G2 c2 hw hG hres
      unfold rewireRetry at hres
      by_cases hcond : w = u ∨ G.hasEdge u w = true
      · rw [if_pos hcond] at hres
        exact Option.noConfusion hres
      · rw [if_neg hcond] at hres
        injection hres with h
        injection h with h1 h2
        rw [← h1]
        exact WSInv_addEdge (WSInv_removeEdge hG u v) hu hw
  | succ fuel ih =>
      intro w c G G2 c2 hw hG hres
      unfold rewireRetry at hres
      by_cases hcond : w = u ∨ G.hasEdge u w = true
      · rw [if_pos hcond] at hres
        have hres2 : (if m - 1 ≤ G.degree u then some (G, c + 1)
            else rewireRetry m pick u v fuel (pickFrom (List.range m) (pick c))
              (c + 1) G) = some (G2, c2) := hres
        by_cases hdeg : m - 1 ≤ G.degree u
        · rw [if_pos hdeg] at hres2
          injection hres2 with h
          injection h with h1 h2
          rw [← h1]
          exact hG
        · rw [if_neg hdeg] at hres2
          exact ih _ (c + 1) G G2 c2
            (pickFrom_range_lt (lt_of_le_of_lt (Nat.zero_le u) hu) _) hG hres2
      · rw [if_neg hcond] at hres
        injection hres with h
        injection h with h1 h2
        rw [← h1]
        exact WSInv_addEdge (WSInv_removeEdge hG u v) hu hw

lemma addEdge_nodes_of_not_mem_right {G : Graph} {a b : ℕ}
    (ha : a ∈ G.nodes) (hb : b ∉ G.nodes) :
    (G.addEdge a b).nodes = G.nodes ++ [b] := by
  rw [addEdge_nodes, addNode_nodes_of_mem ha, addNode_nodes_of_not_mem hb]

lemma foldl_addEdge_WSInv {m : ℕ} (g : ℕ → ℕ) (hg : ∀ x, x < m → g x < m) :
    ∀ (l : List ℕ) (G : Graph), (∀ x ∈ l, x < m) → WSInv m G →
      WSInv m (l.foldl (fun G2 mm => G2.addEdge mm (g mm)) G) := by
  intro l
  induction l with
  | nil => intro G _ hG; exact hG
  | cons a l ih =>
      intro G hl hG
      rw [List.foldl_cons]
      have ha : a < m := hl a (List.mem_cons_self a l)
      exact ih _ (fun x hx => hl x (List.mem_cons_of_mem a hx))
        (WSInv_addEdge hG ha (hg a ha))

lemma lattice_first_pass {m : ℕ} (hm : 2 ≤ m) : ∀ t, 1 ≤ t → t ≤ m →
    ((List.range t).foldl (fun G2 mm => G2.addEdge mm ((mm + 1) % m))
      (Graph.mk [] [])).nodes = List.range (min (t + 1) m) ∧
    (∀ e ∈ ((List.range t).foldl (fun G2 mm => G2.addEdge mm ((mm + 1) % m))
      (Graph.mk [] [])).edges, e.1 < m ∧ e.2 < m) := by
  intro t
  induction t with
  | zero => intro h; omega
  | succ t ih =>
      intro _ htm
      rcases Nat.eq_or_lt_of_le (show 1 ≤ t + 1 from Nat.le_add_left 1 t) with h1 | h1
      · -- t + 1 = 1, the first edge (0, 1 % m) on the empty graph
        have ht0 : t = 0 := by omega
        subst ht0
        have hmod : 1 % m = 1 := Nat.mod_eq_of_lt (by omega)
        have hfold : (List.range 1).foldl
            (fun G2 mm => G2.addEdge mm ((mm + 1) % m)) (Graph.mk [] []) =
            (Graph.mk [] []).addEdge 0 (1 % m) := rfl
        rw [hfold, hmod]
        have hmin : min (0 + 1 + 1) m = 2 := by omega
        rw [hmin]
        exact ⟨rfl, by intro e he; simp only [show ((Graph.mk [] []).addEdge 0 1).edges
          = [(0, 1)] from rfl, List.mem_singleton] at he; rw [he]; exact ⟨by omega, by omega⟩⟩
      · -- t ≥ 1: peel off the last edge (t, (t+1) % m)
        have ht1 : 1 ≤ t := by omega
        obtain ⟨ihn, ihe⟩ := ih ht1 (by omega)
        rw [List.range_succ, List.foldl_append, List.foldl_cons, List.foldl_nil]
        set Gt := (List.range t).foldl (fun G2 mm => G2.addEdge mm ((mm + 1) % m))
          (Graph.mk [] []) with hGt
        have hminT : min (t + 1) m = t + 1 := by omega
        rw [hminT] at ihn
        have hmemt : t ∈ Gt.nodes := by
          rw [ihn]; exact List.mem_range.mpr (by omega)
        by_cases hcase : t + 1 < m
        · have hmod : (t + 1) % m = t + 1 := Nat.mod_eq_of_lt hcase
          have hnotmem : t + 1 ∉ Gt.nodes := by
            rw [ihn, List.mem_range]; omega
          constructor
          · rw [hmod, addEdge_nodes_of_not_mem_right hmemt hnotmem, ihn,
              ← List.range_succ]
            have : min (t + 1 + 1) m = t + 2 := by omega
            rw [this]
          · intro e he
            rcases mem_addEdge_edges he with h2 | h2
            · exact ihe e h2
            · rw [h2, hmod]; exact ⟨by omega, by omega⟩
        · have hteq : t + 1 = m := by omega
          have hmod : (t + 1) % m = 0 := by rw [hteq, Nat.mod_self]
          have hmem0 : 0 ∈ Gt.nodes := by
            rw [ihn]; exact List.mem_range.mpr (by omega)
          constructor
          · rw [hmod, addEdge_nodes_of_mem hmemt hmem0, ihn]
            have : min (t + 1 + 1) m = t + 1 := by omega
            rw [this]
          · intro e he
            rcases mem_addEdge_edges he with h2 | h2
            · exact ihe e h2
            · rw [h2, hmod]; exact ⟨by omega, by omega⟩

lemma wsLattice_WSInv {m k : ℕ} (hk : 2 ≤ k) (hkm : k < m) :
    WSInv m (wsLattice m k) := by
  have hm : 2 ≤ m := by omega
  have hm0 : 0 < m := by omega
  -- the first pass (j = 1) inserts every node in order
  have hfirst : WSInv m ((List.range m).foldl
      (fun G2 mm => G2.addEdge mm ((mm + (0 + 1)) % m)) (Graph.mk [] [])) := by
    have h := lattice_first_pass hm m (by omega) (Nat.le_refl m)
    have hmin : min (m + 1) m = m := by omega
    rw [hmin] at h
    exact h
  -- remaining passes preserve the invariant
  have houter : ∀ (l : List ℕ) (G : Graph), WSInv m G →
      WSInv m (l.foldl (fun G j1 => (List.range m).foldl
        (fun G2 mm => G2.addEdge mm ((mm + (j1 + 1)) % m)) G) G) := by
    intro l
    induction l with
    | nil => intro G hG; exact hG
    | cons a l ih =>
        intro G hG
        rw [List.foldl_cons]
        exact ih _ (foldl_addEdge_WSInv (fun mm => (mm + (a + 1)) % m)
          (fun x _ => Nat.mod_lt _ hm0) (List.range m) G
          (fun x hx => List.mem_range.mp hx) hG)
  have hsplit : ∃ s, k / 2 = s + 1 := ⟨k / 2 - 1, by omega⟩
  obtain ⟨s, hs⟩ := hsplit
  unfold wsLattice
  rw [hs, List.range_succ_eq_map, List.foldl_cons]
  exact houter _ _ hfirst

lemma wsOddItem_WSInv {m k : ℕ} (p : ℚ) (coin : ℕ → ℚ) (pick : ℕ → ℕ)
    (fuel : ℕ) {a : ℕ} (ha : a < m) {G G2 : Graph} {c c2 : ℕ}
    (hG : WSInv m G) (hres : wsOddItem m k p coin pick fuel a G c = some (G2, c2)) :
    WSInv m G2 := by
  have hm : 0 < m := by omega
  unfold wsOddItem at hres
  by_cases h1 : coin c < mkRat 1 2
  · rw [if_pos h1] at hres
    have hG1 : WSInv m (G.addEdge a ((a + k / 2 + 1) % m)) :=
      WSInv_addEdge hG ha (Nat.mod_lt _ hm)
    by_cases h2 : coin (c + 1) < p
    · rw [if_pos h2] at hres
      exact rewireRetry_WSInv pick ha fuel _ _ _ G2 c2
        (pickFrom_range_lt hm _) hG1 hres
    · rw [if_neg h2] at hres
      injection hres with h
      injection h with h3 h4
      rw [← h3]
      exact hG1
  · rw [if_neg h1] at hres
    injection hres with h
    injection h with h3 h4
    rw [← h3]
    exact hG

lemma wsRewireItem_WSInv {m : ℕ} (p : ℚ) (coin : ℕ → ℚ) (pick : ℕ → ℕ)
    (fuel : ℕ) {uv : ℕ × ℕ} (hu : uv.1 < m) {G G2 : Graph} {c c2 : ℕ}
    (hG : WSInv m G) (hres : wsRewireItem m p coin pick fuel uv G c = some (G2, c2)) :
    WSInv m G2 := by
  have hm : 0 < m := by omega
  unfold wsRewireItem at hres
  by_cases h1 : coin c < p
  · rw [if_pos h1] at hres
    exact rewireRetry_WSInv pick hu fuel _ _ _ G2 c2
      (pickFrom_range_lt hm _) hG hres
  · rw [if_neg h1] at hres
    injection hres with h
    injection h with h3 h4
    rw [← h3]
    exact hG

lemma foldOpt_preserve {α : Type} (f : α → Graph → ℕ → Option (Graph × ℕ))
    (P : Graph → Prop) :
    ∀ l : List α, (∀ a ∈ l, ∀ (G : Graph) (c : ℕ) (G2 : Graph) (c2 : ℕ),
        P G → f a G c = some (G2, c2) → P G2) →
      ∀ (acc : Option (Graph × ℕ)) (G2 : Graph) (c2 : ℕ),
        (∀ (G : Graph) (c : ℕ), acc = some (G, c) → P G) →
        foldOpt f l acc = some (G2, c2) → P G2 := by
  intro l
  induction l with
  | nil =>
      intro _ acc G2 c2 hacc hres
      exact hacc G2 c2 hres
  | cons a l ih =>
      intro hf acc G2 c2 hacc hres
      unfold foldOpt at hres
      refine ih (fun b hb => hf b (List.mem_cons_of_mem a hb)) _ G2 c2 ?_ hres
      intro G c hsome
      rw [Option.bind_eq_some] at hsome
      obtain ⟨gc, hgc, hf2⟩ := hsome
      exact hf a (List.mem_cons_self a l) gc.1 gc.2 G c
        (hacc gc.1 gc.2 (by rw [hgc])) hf2

lemma wsPassPairs_fst {m k : ℕ} {a : ℕ × ℕ} (h : a ∈ wsPassPairs m k) :
    a.1 < m := by
  unfold wsPassPairs at h
  rw [List.mem_flatMap] at h
  obtain ⟨j1, _, hmem⟩ := h
  rw [List.mem_map] at hmem
  obtain ⟨u, hu, heq⟩ := hmem
  rw [← heq]
  exact List.mem_range.mp hu

lemma watts_strogatz_graph_WSInv {m k : ℕ} {p : ℚ} {coin : ℕ → ℚ}
    {pick : ℕ → ℕ} {fuel c : ℕ} {G : Graph} {c2 : ℕ} (hk : 2 ≤ k)
    (hres : watts_strogatz_graph m k p coin pick fuel c = some (G, c2)) :
    WSInv m G ∧ k < m := by
  unfold watts_strogatz_graph at hres
  by_cases hnk : m ≤ k
  · rw [if_pos hnk] at hres
    exact Option.noConfusion hres
  · rw [if_neg hnk] at hres
    push_neg at hnk
    refine ⟨?_, hnk⟩
    refine foldOpt_preserve _ (WSInv m) (wsPassPairs m k) ?_ _ G c2 ?_ hres
    · intro a ha G0 c0 G1 c1 hG0 hf
      exact wsRewireItem_WSInv p coin pick fuel (wsPassPairs_fst ha) hG0 hf
    · intro G0 c0 hsome
      injection hsome with h
      injection h with h1 h2
      rw [← h1]
      exact wsLattice_WSInv hk hnk

lemma watts_strogatz_graph_UnevenK_WSInv {m k : ℕ} {p : ℚ} {coin : ℕ → ℚ}
    {pick : ℕ → ℕ} {fuel c : ℕ} {G : Graph} {c2 : ℕ} (hk : 2 ≤ k)
    (hres : watts_strogatz_graph_UnevenK m k p coin pick fuel c = some (G, c2)) :
    WSInv m G ∧ k < m := by
  unfold watts_strogatz_graph_UnevenK at hres
  by_cases hnk : m ≤ k
  · rw [if_pos hnk] at hres
    exact Option.noConfusion hres
  · rw [if_neg hnk] at hres
    push_neg at hnk
    refine ⟨?_, hnk⟩
    refine foldOpt_preserve _ (WSInv m) (wsPassPairs m k) ?_ _ G c2 ?_ hres
    · intro a ha G0 c0 G1 c1 hG0 hf
      exact wsRewireItem_WSInv p coin pick fuel (wsPassPairs_fst ha) hG0 hf
    · intro G0 c0 hsome
      by_cases hodd : k % 2 = 1
      · rw [if_pos hodd] at hsome
        refine foldOpt_preserve _ (WSInv m) (List.range m) ?_ _ G0 c0 ?_ hsome
        · intro a ha G3 c3 G4 c4 hG3 hf
          exact wsOddItem_WSInv p coin pick fuel (List.mem_range.mp ha) hG3 hf
        · intro G3 c3 hsome2
          injection hsome2 with h
          injection h with h1 h2
          rw [← h1]
          exact wsLattice_WSInv hk hnk
      · rw [if_neg hodd] at hsome
        injection hsome with h
        injection h with h1 h2
        rw [← h1]
        exact wsLattice_WSInv hk hnk

lemma indexOf_map_succ (l : List ℕ) (v : ℕ) :
    (l.map Nat.succ).indexOf (v + 1) = l.indexOf v := by
  induction l with
  | nil => rfl
  | cons x l ih =>
      rw [List.map_cons, List.indexOf_cons, List.indexOf_cons]
      have hbeq : (Nat.succ x == v + 1) = (x == v) := by
        by_cases h : x = v <;> simp [h, Nat.succ_eq_add_one]
      rw [hbeq, ih]

lemma indexOf_range {m v : ℕ} (h : v < m) : (List.range m).indexOf v = v := by
  induction m generalizing v with
  | zero => omega
  | succ m ih =>
      rw [List.range_succ_eq_map, List.indexOf_cons]
      cases v with
      | zero => simp
      | succ v =>
          have h0 : (0 == v + 1) = false := by simp
          rw [h0]
          show (List.map Nat.succ (List.range m)).indexOf (v + 1) + 1 = v + 1
          rw [indexOf_map_succ, ih (by omega)]

lemma hasEdge_iff (G : Graph) (a b : ℕ) :
    G.hasEdge a b = true ↔ (a, b) ∈ G.edges ∨ (b, a) ∈ G.edges := by
  unfold Graph.hasEdge
  rw [Bool.or_eq_true]
  constructor
  · rintro (h | h)
    · exact Or.inl (List.elem_iff.mp h)
    · exact Or.inr (List.elem_iff.mp h)
  · rintro (h | h)
    · exact Or.inl (List.elem_iff.mpr h)
    · exact Or.inr (List.elem_iff.mpr h)

lemma hasEdge_addEdge (G : Graph) (x y a b : ℕ) :
    (G.addEdge x y).hasEdge a b = true ↔
      G.hasEdge a b = true ∨ (a, b) = (x, y) ∨ (b, a) = (x, y) := by
  rw [hasEdge_iff, hasEdge_iff]
  rw [show (G.addEdge x y).edges =
    if G.hasEdge x y = true then G.edges else G.edges ++ [(x, y)] from addEdge_edges G x y]
  by_cases hc : G.hasEdge x y = true
  · rw [if_pos hc]
    constructor
    · rintro (h | h)
      · exact Or.inl (Or.inl h)
      · exact Or.inl (Or.inr h)
    · rintro ((h | h) | h | h)
      · exact Or.inl h
      · exact Or.inr h
      · rw [hasEdge_iff] at hc
        injection h with h1 h2
        rw [h1, h2]
        exact hc
      · rw [hasEdge_iff] at hc
        injection h with h1 h2
        rcases hc with hc | hc
        · exact Or.inr (by rw [h1, h2]; exact hc)
        · exact Or.inl (by rw [h1, h2]; exact hc)
  · rw [if_neg hc]
    simp only [List.mem_append, List.mem_singleton]
    constructor
    · rintro (h | h)
      · rcases h with h | h
        · exact Or.inl (Or.inl h)
        · exact Or.inr (Or.inl h)
      · rcases h with h | h
        · exact Or.inl (Or.inr h)
        · exact Or.inr (Or.inr h)
    · rintro ((h | h) | h | h)
      · exact Or.inl (Or.inl h)
      · exact Or.inr (Or.inl h)
      · exact Or.inl (Or.inr h)
      · exact Or.inr (Or.inr h)

lemma addEdgesList_nodes_mono {G : Graph} {l : List (ℕ × ℕ)} {x : ℕ}
    (h : x ∈ G.nodes) : x ∈ (addEdgesList G l).nodes := by
  induction l generalizing G with
  | nil => exact h
  | cons e l ih =>
      unfold addEdgesList
      rw [List.foldl_cons]
      exact ih (mem_addEdge_nodes.mpr (Or.inl h))

lemma mem_addEdgesList_edges {G : Graph} {l : List (ℕ × ℕ)} {e : ℕ × ℕ}
    (h : e ∈ (addEdgesList G l).edges) : e ∈ G.edges ∨ e ∈ l := by
  induction l generalizing G with
  | nil => exact Or.inl h
  | cons a l ih =>
      unfold addEdgesList at h
      rw [List.foldl_cons] at h
      rcases ih h with h2 | h2
      · rcases mem_addEdge_edges h2 with h3 | h3
        · exact Or.inl h3
        · rw [h3]
          exact Or.inr (List.mem_cons_self a l)
      · exact Or.inr (List.mem_cons_of_mem a h2)

lemma mem_addEdgesList_nodes {G : Graph} {l : List (ℕ × ℕ)} {x : ℕ}
    (h : x ∈ (addEdgesList G l).nodes) :
    x ∈ G.nodes ∨ ∃ e ∈ l, x = e.1 ∨ x = e.2 := by
  induction l generalizing G with
  | nil => exact Or.inl h
  | cons a l ih =>
      unfold addEdgesList at h
      rw [List.foldl_cons] at h
      rcases ih h with h2 | h2
      · rcases mem_addEdge_nodes.mp h2 with h3 | h3 | h3
        · exact Or.inl h3
        · exact Or.inr ⟨a, List.mem_cons_self a l, Or.inl h3⟩
        · exact Or.inr ⟨a, List.mem_cons_self a l, Or.inr h3⟩
      · obtain ⟨e, he, hx⟩ := h2
        exact Or.inr ⟨e, List.mem_cons_of_mem a he, hx⟩

lemma hasEdge_addEdgesList (G : Graph) (l : List (ℕ × ℕ)) (a b : ℕ) :
    (addEdgesList G l).hasEdge a b = true ↔
      G.hasEdge a b = true ∨ (a, b) ∈ l ∨ (b, a) ∈ l := by
  induction l generalizing G with
  | nil => simp [addEdgesList]
  | cons e l ih =>
      unfold addEdgesList
      rw [List.foldl_cons]
      have := ih (G := G.addEdge e.1 e.2)
      unfold addEdgesList at this
      rw [this, hasEdge_addEdge]
      constructor
      · rintro ((h | h | h) | h | h)
        · exact Or.inl h
        · exact Or.inr (Or.inl (by rw [h]; exact List.mem_cons_self e l))
        · exact Or.inr (Or.inr (by rw [h]; exact List.mem_cons_self e l))
        · exact Or.inr (Or.inl (List.mem_cons_of_mem e h))
        · exact Or.inr (Or.inr (List.mem_cons_of_mem e h))
      · rintro (h | h | h)
        · exact Or.inl (Or.inl h)
        · rcases List.mem_cons.mp h with h2 | h2
          · exact Or.inl (Or.inr (Or.inl (by rw [h2])))
          · exact Or.inr (Or.inl h2)
        · rcases List.mem_cons.mp h with h2 | h2
          · exact Or.inl (Or.inr (Or.inr (by rw [h2])))
          · exact Or.inr (Or.inr h2)

lemma addNodesList_edges (G : Graph) (l : List ℕ) :
    (addNodesList G l).edges = G.edges := by
  induction l generalizing G with
  | nil => rfl
  | cons a l ih =>
      unfold addNodesList
      rw [List.foldl_cons]
      have := ih (G := G.addNode a)
      unfold addNodesList at this
      rw [this, addNode_edges]

lemma mem_addNodesList_nodes (G : Graph) (l : List ℕ) (x : ℕ) :
    x ∈ (addNodesList G l).nodes ↔ x ∈ G.nodes ∨ x ∈ l := by
  induction l generalizing G with
  | nil => simp [addNodesList]
  | cons a l ih =>
      unfold addNodesList
      rw [List.foldl_cons]
      have := ih (G := G.addNode a)
      unfold addNodesList at this
      rw [this, mem_addNode_nodes]
      constructor
      · rintro ((h | h) | h)
        · exact Or.inl h
        · exact Or.inr (by rw [h]; exact List.mem_cons_self a l)
        · exact Or.inr (List.mem_cons_of_mem a h)
      · rintro (h | h)
        · exact Or.inl (Or.inl h)
        · rcases List.mem_cons.mp h with h2 | h2
          · exact Or.inl (Or.inr h2)
          · exact Or.inr h2

lemma offsetPattern_bounds : ∀ i ∈ offsetPattern, -4 ≤ i ∧ i ≤ 4 := by decide

lemma interTarget_bounds {n n2 edgefrom : ℕ} {i : ℤ}
    (hn : n = 2 * n2) (h4 : 4 ≤ n2) (he : edgefrom < n2)
    (hi1 : -4 ≤ i) (hi2 : i ≤ 4) :
    n2 ≤ interTarget n n2 edgefrom i ∧ interTarget n n2 edgefrom i < n := by
  unfold interTarget
  dsimp only
  split_ifs <;> omega

/-- Exact node-range invariant maintained through the between-group phase:
nodes are precisely `0 .. n-1` (as a set) and all edges stay inside. -/
def NodesExact (n : ℕ) (G : Graph) : Prop :=
  (∀ v ∈ G.nodes, v < n) ∧ (∀ v, v < n → v ∈ G.nodes) ∧
    ∀ e ∈ G.edges, e.1 < n ∧ e.2 < n

lemma NodesExact_addEdge {n : ℕ} {G : Graph} (h : NodesExact n G)
    {a b : ℕ} (ha : a < n) (hb : b < n) : NodesExact n (G.addEdge a b) := by
  obtain ⟨h1, h2, h3⟩ := h
  refine ⟨?_, ?_, ?_⟩
  · intro v hv
    rcases mem_addEdge_nodes.mp hv with h4 | h4 | h4
    · exact h1 v h4
    · rw [h4]; exact ha
    · rw [h4]; exact hb
  · intro v hv
    exact mem_addEdge_nodes.mpr (Or.inl (h2 v hv))
  · intro e he
    rcases mem_addEdge_edges he with h4 | h4
    · exact h3 e h4
    · rw [h4]; exact ⟨ha, hb⟩

lemma NodesExact_removeEdge {n : ℕ} {G : Graph} (h : NodesExact n G) (a b : ℕ) :
    NodesExact n (G.removeEdge a b) := by
  obtain ⟨h1, h2, h3⟩ := h
  exact ⟨fun v hv => h1 v (by rw [removeEdge_nodes] at hv; exact hv),
    fun v hv => by rw [removeEdge_nodes]; exact h2 v hv,
    fun e he => h3 e (mem_removeEdge_edges he)⟩

lemma interRetry_NodesExact {n : ℕ} {coin : ℕ → ℚ} {pick : ℕ → ℕ}
    {G1nodes G2nodes : List ℕ} {edgefrom edgeto : ℕ}
    (hn : 0 < n) (h1 : ∀ x ∈ G1nodes, x < n) (h2 : ∀ x ∈ G2nodes, x < n)
    (hef : edgefrom < n) (het : edgeto < n) :
    ∀ (fuel : ℕ) (G : Graph) (c : ℕ) (G2 : Graph) (c2 : ℕ), NodesExact n G →
      interRetry coin pick G1nodes G2nodes edgefrom edgeto fuel G c = some (G2, c2) →
      NodesExact n G2 := by
  intro fuel
  induction fuel with
  | zero =>
      intro G c G2 c2 _ hres
      exact Option.noConfusion hres
  | succ fuel ih =>
      intro G c G2 c2 hG hres
      unfold interRetry at hres
      set ef := if coin c < mkRat 1 2 then edgefrom else pickFrom G1nodes (pick (c + 1))
        with hef2
      set et := if coin c < mkRat 1 2 then pickFrom G2nodes (pick (c + 1)) else edgeto
        with het2
      have hefn : ef < n := by
        rw [hef2]
        split_ifs
        · exact hef
        · exact pickFrom_lt hn h1 _
      have hetn : et < n := by
        rw [het2]
        split_ifs
        · exact pickFrom_lt hn h2 _
        · exact het
      by_cases hacc : ef ≠ et ∧ G.hasEdge ef et = false
      · rw [if_pos hacc] at hres
        injection hres with h
        injection h with ha hb
        rw [← ha]
        exact NodesExact_addEdge hG hefn hetn
      · rw [if_neg hacc] at hres
        exact ih G (c + 2) G2 c2 hG hres

lemma interItem_NodesExact {n n2 : ℕ} {p : ℚ} {coin : ℕ → ℚ} {pick : ℕ → ℕ}
    {fuel : ℕ} {G1nodes G2nodes : List ℕ} {ei : ℕ × ℤ}
    (hn : n = 2 * n2) (h4 : 4 ≤ n2)
    (hg1 : ∀ x ∈ G1nodes, x < n) (hg2 : ∀ x ∈ G2nodes, x < n)
    (hei1 : ei.1 < n2) (hei2 : -4 ≤ ei.2 ∧ ei.2 ≤ 4)
    {G G2 : Graph} {c c2 : ℕ} (hG : NodesExact n G)
    (hres : interItem n n2 p coin pick fuel G1nodes G2nodes ei G c = some (G2, c2)) :
    NodesExact n G2 := by
  have hn0 : 0 < n := by omega
  have htb := interTarget_bounds hn h4 hei1 hei2.1 hei2.2
  have hef : ei.1 < n := by omega
  have het : interTarget n n2 ei.1 ei.2 < n := htb.2
  unfold interItem at hres
  have hG1 : NodesExact n (G.addEdge ei.1 (interTarget n n2 ei.1 ei.2)) :=
    NodesExact_addEdge hG hef het
  by_cases hcp : coin c < p
  · rw [if_pos hcp] at hres
    exact interRetry_NodesExact hn0 hg1 hg2 hef het fuel _ _ G2 c2
      (NodesExact_removeEdge hG1 _ _) hres
  · rw [if_neg hcp] at hres
    injection hres with h
    injection h with ha hb
    rw [← ha]
    exact hG1

lemma relabel_of_WSInv {m : ℕ} {G : Graph} (hG : WSInv m G)
    (off : ℕ) (f : ℕ → ℕ) (hf : ∀ v, v < m → f v = off + v) :
    (relabel_nodes G f).nodes = (List.range m).map (fun v => off + v) ∧
    ∀ e ∈ (relabel_nodes G f).edges,
      (off ≤ e.1 ∧ e.1 < off + m) ∧ (off ≤ e.2 ∧ e.2 < off + m) := by
  obtain ⟨hn, he⟩ := hG
  constructor
  · unfold relabel_nodes
    rw [hn]
    exact List.map_congr_left (fun v hv => hf v (List.mem_range.mp hv))
  · intro e hmem
    unfold relabel_nodes at hmem
    rw [List.mem_map] at hmem
    obtain ⟨e0, he0, heq⟩ := hmem
    obtain ⟨hb1, hb2⟩ := he e0 he0
    rw [← heq]
    constructor
    · rw [hf e0.1 hb1]
      exact ⟨Nat.le_add_right off e0.1, by omega⟩
    · rw [hf e0.2 hb2]
      exact ⟨Nat.le_add_right off e0.2, by omega⟩

lemma create_destruct {n k_in k_out : ℕ} {p : ℚ} {coin : ℕ → ℚ} {pick : ℕ → ℕ}
    {fuel c : ℕ} {G : Graph} {ids : List ℕ} {c2 : ℕ} (hk : 2 ≤ k_in)
    (hres : create_withinAndBetweenGroup_network n k_in k_out p coin pick fuel c
      = some (G, ids, c2)) :
    n % 2 = 0 ∧ k_in < n / 2 ∧
    ids = List.replicate (n / 2) 0 ++ List.replicate (n / 2) 1 ∧
    ∃ (G1edges G2edges : List (ℕ × ℕ)) (cmid : ℕ),
      (∀ e ∈ G1edges, e.1 < n / 2 ∧ e.2 < n / 2) ∧
      (∀ e ∈ G2edges, (n / 2 ≤ e.1 ∧ e.1 < n) ∧ (n / 2 ≤ e.2 ∧ e.2 < n)) ∧
      foldOpt (interItem n (n / 2) p coin pick fuel (List.range (n / 2))
          ((List.range (n / 2)).map (fun v => n / 2 + v)))
        ((List.range (n / 2)).flatMap
          (fun e => (offsetPattern.take k_out).map (fun i => (e, i))))
        (some (addNodesList
          (addEdgesList (Graph.mk [] []) (G1edges ++ G2edges))
          (List.range (n / 2) ++ (List.range (n / 2)).map (fun v => n / 2 + v)),
          cmid))
        = some (G, c2) := by
  unfold create_withinAndBetweenGroup_network at hres
  by_cases heven : n % 2 ≠ 0
  · rw [if_pos heven] at hres
    exact Option.noConfusion hres
  · rw [if_neg heven] at hres
    push_neg at heven
    rw [Option.bind_eq_some] at hres
    obtain ⟨g1c, hws1, hres⟩ := hres
    rw [Option.bind_eq_some] at hres
    obtain ⟨g2c, hws2, hres⟩ := hres
    rw [Option.map_eq_some'] at hres
    obtain ⟨gc, hfold, heq⟩ := hres
    have hG : gc.1 = G := congrArg (fun t => t.1) heq
    have hids : (List.replicate g1c.1.nodes.length 0 ++
        List.replicate (relabel_nodes g2c.1
          (fun v => g1c.1.nodes.length + g2c.1.nodes.indexOf v)).nodes.length 1)
        = ids := congrArg (fun t => t.2.1) heq
    have hc2 : gc.2 = c2 := congrArg (fun t => t.2.2) heq
    -- the two within-group graphs satisfy the WS invariant
    have hwsElim : ∀ (c0 : ℕ) (g : Graph × ℕ),
        (if k_in % 2 = 0 ∧ k_out % 2 = 0 then
          watts_strogatz_graph (n / 2) k_in p coin pick fuel c0
        else watts_strogatz_graph_UnevenK (n / 2) k_in p coin pick fuel c0)
          = some g → WSInv (n / 2) g.1 ∧ k_in < n / 2 := by
      intro c0 g hg
      by_cases hcond : k_in % 2 = 0 ∧ k_out % 2 = 0
      · rw [if_pos hcond] at hg
        exact watts_strogatz_graph_WSInv hk (show _ = some (g.1, g.2) from hg)
      · rw [if_neg hcond] at hg
        exact watts_strogatz_graph_UnevenK_WSInv hk (show _ = some (g.1, g.2) from hg)
    obtain ⟨hinv1, hklt⟩ := hwsElim c g1c hws1
    obtain ⟨hinv2, _⟩ := hwsElim g1c.2 g2c hws2
    have hn1 : g1c.1.nodes = List.range (n / 2) := hinv1.1
    have hn2 : g2c.1.nodes = List.range (n / 2) := hinv2.1
    have hlen1 : g1c.1.nodes.length = n / 2 := by rw [hn1, List.length_range]
    set R := relabel_nodes g2c.1
      (fun v => g1c.1.nodes.length + g2c.1.nodes.indexOf v) with hR
    have hrel := relabel_of_WSInv hinv2 (n / 2)
      (fun v => g1c.1.nodes.length + g2c.1.nodes.indexOf v)
      (fun v hv => by
        show g1c.1.nodes.length + g2c.1.nodes.indexOf v = n / 2 + v
        rw [hlen1, hn2, indexOf_range hv])
    rw [← hR] at hrel
    have hreln : R.nodes = (List.range (n / 2)).map (fun v => n / 2 + v) := hrel.1
    refine ⟨heven, hklt, ?_, g1c.1.edges, R.edges, g2c.2, ?_, ?_, ?_⟩
    · rw [← hids, hreln, hlen1, List.length_map, List.length_range]
    · intro e he
      exact hinv1.2 e he
    · intro e he
      obtain ⟨⟨ha1, ha2⟩, ⟨hb1, hb2⟩⟩ := hrel.2 e he
      refine ⟨⟨ha1, by omega⟩, ⟨hb1, by omega⟩⟩
    · rw [← hG, ← hc2]
      rw [hlen1, hn1, hreln] at hfold
      exact hfold

/-- C8 corrected: for even `n ≥ 8` (group size at least the largest offset
magnitude, 4) and `2 ≤ k_in`, every successful construction yields a graph
whose node set is exactly `0 .. n-1`, with every edge (including all
rewired ones) inside that range, and the positional group labels assign 0
to nodes `0 .. n/2-1` and 1 to nodes `n/2 .. n-1`; the labels are a pure
function of node position, so rewiring never changes a node's group. -/
theorem network_nodes_and_groups {n k_in k_out : ℕ} {p : ℚ}
    {coin : ℕ → ℚ} {pick : ℕ → ℕ} {fuel c : ℕ} {G : Graph} {ids : List ℕ}
    {c2 : ℕ} (hn8 : 8 ≤ n) (hk : 2 ≤ k_in)
    (hres : create_withinAndBetweenGroup_network n k_in k_out p coin pick fuel c
      = some (G, ids, c2)) :
    (∀ v, v ∈ G.nodes ↔ v < n) ∧
    (∀ e ∈ G.edges, e.1 < n ∧ e.2 < n) ∧
    ids.length = n ∧
    (∀ v, v < n / 2 → ids[v]? = some 0) ∧
    (∀ v, n / 2 ≤ v → v < n → ids[v]? = some 1) := by
  obtain ⟨heven, hklt, hids, G1e, G2e, cmid, hG1e, hG2e, hfold⟩ :=
    create_destruct hk hres
  have hnn : n / 2 + n / 2 = n := by omega
  have h4 : 4 ≤ n / 2 := by omega
  set Gbase := addNodesList (addEdgesList (Graph.mk [] []) (G1e ++ G2e))
    (List.range (n / 2) ++ (List.range (n / 2)).map (fun v => n / 2 + v)) with hGb
  have hbase : NodesExact n Gbase := by
    refine ⟨?_, ?_, ?_⟩
    · intro v hv
      rw [hGb, mem_addNodesList_nodes] at hv
      rcases hv with hv | hv
      · rcases mem_addEdgesList_nodes hv with hv2 | ⟨e, he, hor⟩
        · simp [Graph.mk] at hv2
        · rcases List.mem_append.mp he with he2 | he2
          · have := hG1e e he2
            rcases hor with h | h <;> omega
          · have := hG2e e he2
            rcases hor with h | h <;> omega
      · rcases List.mem_append.mp hv with hv2 | hv2
        · have := List.mem_range.mp hv2
          omega
        · rw [List.mem_map] at hv2
          obtain ⟨a, ha, rfl⟩ := hv2
          have := List.mem_range.mp ha
          omega
    · intro v hv
      rw [hGb, mem_addNodesList_nodes]
      right
      rw [List.mem_append]
      by_cases hv2 : v < n / 2
      · exact Or.inl (List.mem_range.mpr hv2)
      · right
        rw [List.mem_map]
        exact ⟨v - n / 2, List.mem_range.mpr (by omega), by omega⟩
    · intro e he
      rw [hGb, addNodesList_edges] at he
      rcases mem_addEdgesList_edges he with he2 | he2
      · simp [Graph.mk] at he2
      · rcases List.mem_append.mp he2 with he3 | he3
        · have := hG1e e he3
          omega
        · have := hG2e e he3
          omega
  have hfinal : NodesExact n G := by
    refine foldOpt_preserve _ (NodesExact n) _ ?_ _ G c2 ?_ hfold
    · intro a ha G0 c0 G3 c3 hG0 hf
      rw [List.mem_flatMap] at ha
      obtain ⟨e, he, hmem⟩ := ha
      rw [List.mem_map] at hmem
      obtain ⟨i, hi, rfl⟩ := hmem
      have hib := offsetPattern_bounds i (List.take_subset _ _ hi)
      refine interItem_NodesExact (by omega) h4 ?_ ?_
        (List.mem_range.mp he) hib hG0 hf
      · intro x hx
        have := List.mem_range.mp hx
        omega
      · intro x hx
        rw [List.mem_map] at hx
        obtain ⟨a2, ha2, rfl⟩ := hx
        have := List.mem_range.mp ha2
        omega
    · intro G0 c0 hsome
      injection hsome with h
      injection h with h1 h2
      rw [← h1]
      exact hbase
  obtain ⟨hup, hcov, hedge⟩ := hfinal
  refine ⟨fun v => ⟨hup v, hcov v⟩, hedge, ?_, ?_, ?_⟩
  · rw [hids, List.length_append, List.length_replicate, List.length_replicate]
    omega
  · intro v hv
    rw [hids, List.getElem?_append_left (by rw [List.length_replicate]; exact hv),
      List.getElem?_replicate, if_pos hv]
  · intro v hv1 hv2
    rw [hids, List.getElem?_append_right (by rw [List.length_replicate]; exact hv1),
      List.length_replicate, List.getElem?_replicate, if_pos (by omega)]

set_option maxRecDepth 4000 in
/-- C8 counterexample: with `n = 6`, `k_in = 2`, `k_out = 8` and no
rewiring, the single wrap-around correction of the between-group endpoint
is insufficient (`edgefrom = 2`, offset `+4` gives `2 + 3 + 4 = 9`, one
subtraction leaves `6 ≥ n`), so `add_edge(2, 6)` silently adds the node `6`
outside `0 .. 5` and the graph does not have exactly `n_agents` nodes. -/
theorem network_small_group_out_of_range :
    (create_withinAndBetweenGroup_network 6 2 8 0 (fun _ => mkRat 1 2)
      (fun _ => 0) 1 0).map (fun r => r.1.nodes.contains 6) = some true ∧
    (create_withinAndBetweenGroup_network 6 2 8 0 (fun _ => mkRat 1 2)
      (fun _ => 0) 1 0).map (fun r => decide (r.1.nodes.length = 6))
      = some false := by
  exact ⟨by decide, by decide⟩

/-- The concrete run used to witness `network_nodes_and_groups`:
`n = 8`, `k_in = k_out = 2`, no rewiring. -/
def c8WitnessRun : Graph × List ℕ × ℕ :=
  (create_withinAndBetweenGroup_network 8 2 2 0 (fun _ => mkRat 1 2)
    (fun _ => 0) 1 0).getD (Graph.mk [] [], [], 0)

set_option maxRecDepth 4000 in
/-- Witness for `network_nodes_and_groups` on the run `c8WitnessRun`. -/
theorem network_nodes_and_groups_witness :
    ((8 : ℕ) ≤ 8 ∧ (2 : ℕ) ≤ 2 ∧
      create_withinAndBetweenGroup_network 8 2 2 0 (fun _ => mkRat 1 2)
        (fun _ => 0) 1 0 =
        some (c8WitnessRun.1, c8WitnessRun.2.1, c8WitnessRun.2.2)) ∧
    ((∀ v, v ∈ c8WitnessRun.1.nodes ↔ v < 8) ∧
      (∀ e ∈ c8WitnessRun.1.edges, e.1 < 8 ∧ e.2 < 8) ∧
      c8WitnessRun.2.1.length = 8 ∧
      (∀ v, v < 8 / 2 → c8WitnessRun.2.1[v]? = some 0) ∧
      (∀ v, 8 / 2 ≤ v → v < 8 → c8WitnessRun.2.1[v]? = some 1)) :=
  ⟨⟨Nat.le_refl 8, Nat.le_refl 2, by decide⟩,
    @network_nodes_and_groups 8 2 2 0 (fun _ => mkRat 1 2) (fun _ => 0) 1 0
      c8WitnessRun.1 c8WitnessRun.2.1 c8WitnessRun.2.2
      (Nat.le_refl 8) (Nat.le_refl 2) (by decide)⟩

lemma interItem_p0 {n n2 : ℕ} {coin : ℕ → ℚ} {pick : ℕ → ℕ} {fuel : ℕ}
    {G1nodes G2nodes : List ℕ} (ei : ℕ × ℤ) (G : Graph) (c : ℕ)
    (hc : 0 ≤ coin c) :
    interItem n n2 0 coin pick fuel G1nodes G2nodes ei G c =
      some (G.addEdge ei.1 (interTarget n n2 ei.1 ei.2), c + 1) := by
  unfold interItem
  rw [if_neg (not_lt.mpr hc)]

lemma foldOpt_interItems_p0 {n n2 : ℕ} {coin : ℕ → ℚ} {pick : ℕ → ℕ}
    {fuel : ℕ} {G1nodes G2nodes : List ℕ} (hcoin : ∀ j, 0 ≤ coin j) :
    ∀ (pairs : List (ℕ × ℤ)) (G : Graph) (c : ℕ),
      foldOpt (interItem n n2 0 coin pick fuel G1nodes G2nodes) pairs
        (some (G, c)) =
      some (addEdgesList G
        (pairs.map (fun ei => (ei.1, interTarget n n2 ei.1 ei.2))),
        c + pairs.length) := by
  intro pairs
  induction pairs with
  | nil =>
      intro G c
      show some (G, c) = some (addEdgesList G [], c + 0)
      rfl
  | cons a l ih =>
      intro G c
      unfold foldOpt
      rw [Option.some_bind, interItem_p0 a G c (hcoin c), ih]
      rw [List.map_cons, List.length_cons]
      show some (addEdgesList (G.addEdge a.1 (interTarget n n2 a.1 a.2))
        (l.map (fun ei => (ei.1, interTarget n n2 ei.1 ei.2))), c + 1 + l.length)
        = _
      rw [show c + 1 + l.length = c + (l.length + 1) by omega]
      rfl

lemma hasEdge_addNodesList (G : Graph) (l : List ℕ) (a b : ℕ) :
    (addNodesList G l).hasEdge a b = G.hasEdge a b := by
  unfold Graph.hasEdge
  rw [addNodesList_edges]

lemma interTarget_inj {n n2 v : ℕ} {i i2 : ℤ} (hn : n = 2 * n2) (h9 : 9 ≤ n2)
    (hv : v < n2) (hi1 : -4 ≤ i) (hi2 : i ≤ 4) (hj1 : -4 ≤ i2) (hj2 : i2 ≤ 4)
    (heq : interTarget n n2 v i = interTarget n n2 v i2) : i = i2 := by
  unfold interTarget at heq
  dsimp only at heq
  split_ifs at heq <;> omega

/-- C10: with rewiring disabled (`p = 0`, so the constructed graph is the
pre-rewiring graph) and group size at least 9 (so the at most 9 wrapped
offsets are pairwise distinct), every group-1 node `v` is linked to exactly
`min(k_out, 9)` group-2 nodes, namely the positionally corresponding
targets of the fixed offset list `[0, 1, -1, 2, -2, 3, -3, 4, -4]`
truncated by `[:int(k_out)]`; in particular `k_out > 9` silently yields 9
inter-group links per node, not `k_out`. -/
theorem inter_links_truncated_to_nine {n k_in k_out : ℕ}
    {coin : ℕ → ℚ} {pick : ℕ → ℕ} {fuel c : ℕ} {G : Graph} {ids : List ℕ}
    {c2 : ℕ} {v : ℕ}
    (h9 : 9 ≤ n / 2) (hk : 2 ≤ k_in) (hcoin : ∀ j, 0 ≤ coin j)
    (hres : create_withinAndBetweenGroup_network n k_in k_out 0 coin pick fuel c
      = some (G, ids, c2))
    (hv : v < n / 2) :
    (∀ u, n / 2 ≤ u → u < n →
      (G.hasEdge v u = true ↔
        ∃ i ∈ offsetPattern.take k_out, u = interTarget n (n / 2) v i)) ∧
    ((List.range n).filter
        (fun u => decide (n / 2 ≤ u) && G.hasEdge v u)).length = min k_out 9 := by
  obtain ⟨heven, hklt, hids, G1e, G2e, cmid, hG1e, hG2e, hfold⟩ :=
    create_destruct hk hres
  have hnn : n = 2 * (n / 2) := by omega
  have h4 : 4 ≤ n / 2 := by omega
  rw [foldOpt_interItems_p0 hcoin] at hfold
  injection hfold with hfold2
  injection hfold2 with hG hc2
  -- characterize cross-group adjacency in the final graph
  have hchar : ∀ u, n / 2 ≤ u → u < n →
      (G.hasEdge v u = true ↔
        ∃ i ∈ offsetPattern.take k_out, u = interTarget n (n / 2) v i) := by
    intro u hu1 hu2
    rw [← hG, hasEdge_addEdgesList, hasEdge_addNodesList, hasEdge_addEdgesList]
    have hempty : (Graph.mk [] []).hasEdge v u = false := rfl
    rw [hempty]
    constructor
    · rintro ((habs | hbase | hbase) | hmem | hmem)
      · exact absurd habs (by simp)
      · rcases List.mem_append.mp hbase with hb | hb
        · have := hG1e _ hb
          omega
        · have := hG2e _ hb
          omega
      · rcases List.mem_append.mp hbase with hb | hb
        · have := hG1e _ hb
          omega
        · have := hG2e _ hb
          omega
      · rw [List.mem_map] at hmem
        obtain ⟨ei, hei, heq⟩ := hmem
        rw [List.mem_flatMap] at hei
        obtain ⟨e, he, hei2⟩ := hei
        rw [List.mem_map] at hei2
        obtain ⟨i, hi, rfl⟩ := hei2
        injection heq with h1 h2
        exact ⟨i, hi, by rw [← h2, ← h1]⟩
      · rw [List.mem_map] at hmem
        obtain ⟨ei, hei, heq⟩ := hmem
        rw [List.mem_flatMap] at hei
        obtain ⟨e, he, hei2⟩ := hei
        rw [List.mem_map] at hei2
        obtain ⟨i, hi, rfl⟩ := hei2
        injection heq with h1 h2
        have h2b : interTarget n (n / 2) e i = v := h2
        have hib := offsetPattern_bounds i (List.take_subset _ _ hi)
        have := (interTarget_bounds hnn h4 (List.mem_range.mp he) hib.1 hib.2).1
        omega
    · rintro ⟨i, hi, rfl⟩
      refine Or.inr (Or.inl ?_)
      rw [List.mem_map]
      refine ⟨(v, i), ?_, rfl⟩
      rw [List.mem_flatMap]
      exact ⟨v, List.mem_range.mpr hv, by rw [List.mem_map]; exact ⟨i, hi, rfl⟩⟩
  refine ⟨hchar, ?_⟩
  -- count the distinct targets
  have htake_nodup : (offsetPattern.take k_out).Nodup :=
    List.Nodup.sublist (List.take_sublist _ _) (by decide)
  have htargets_nodup :
      ((offsetPattern.take k_out).map (fun i => interTarget n (n / 2) v i)).Nodup := by
    refine List.Nodup.map_on ?_ htake_nodup
    intro x hx y hy hxy
    have hxb := offsetPattern_bounds x (List.take_subset _ _ hx)
    have hyb := offsetPattern_bounds y (List.take_subset _ _ hy)
    exact interTarget_inj hnn h9 hv hxb.1 hxb.2 hyb.1 hyb.2 hxy
  have hfilter_nodup :
      ((List.range n).filter
        (fun u => decide (n / 2 ≤ u) && G.hasEdge v u)).Nodup :=
    List.Nodup.filter _ (List.nodup_range n)
  have hiff : ∀ x,
      x ∈ (List.range n).filter (fun u => decide (n / 2 ≤ u) && G.hasEdge v u) ↔
      x ∈ (offsetPattern.take k_out).map (fun i => interTarget n (n / 2) v i) := by
    intro x
    rw [List.mem_filter, List.mem_range, Bool.and_eq_true, decide_eq_true_iff,
      List.mem_map]
    constructor
    · rintro ⟨hxn, hx2, hedge⟩
      obtain ⟨i, hi, heq⟩ := (hchar x hx2 hxn).mp hedge
      exact ⟨i, hi, heq.symm⟩
    · rintro ⟨i, hi, heq⟩
      have hib := offsetPattern_bounds i (List.take_subset _ _ hi)
      have hb := interTarget_bounds hnn h4 hv hib.1 hib.2
      refine ⟨by omega, by omega, ?_⟩
      exact (hchar x (by omega) (by omega)).mpr ⟨i, hi, heq.symm⟩
  have hperm := (List.perm_ext_iff_of_nodup hfilter_nodup htargets_nodup).mpr hiff
  rw [hperm.length_eq, List.length_map, List.length_take]
  rfl

/-- The concrete run used to witness `inter_links_truncated_to_nine`:
`n = 18`, `k_in = 2`, `k_out = 11 > 9`, no rewiring. -/
def c10WitnessRun : Graph × List ℕ × ℕ :=
  (create_withinAndBetweenGroup_network 18 2 11 0 (fun _ => mkRat 1 2)
    (fun _ => 0) 1 0).getD (Graph.mk [] [], [], 0)

set_option maxRecDepth 8000 in
/-- Witness for `inter_links_truncated_to_nine` on the run `c10WitnessRun`
at group-1 node 0: it has exactly `min 11 9 = 9` group-2 neighbours. -/
theorem inter_links_truncated_witness :
    ((9 : ℕ) ≤ 18 / 2 ∧ (2 : ℕ) ≤ 2 ∧
      (∀ j : ℕ, (0 : ℚ) ≤ (fun _ => mkRat 1 2) j) ∧
      create_withinAndBetweenGroup_network 18 2 11 0 (fun _ => mkRat 1 2)
        (fun _ => 0) 1 0 =
        some (c10WitnessRun.1, c10WitnessRun.2.1, c10WitnessRun.2.2) ∧
      (0 : ℕ) < 18 / 2) ∧
    ((∀ u, 18 / 2 ≤ u → u < 18 →
      (c10WitnessRun.1.hasEdge 0 u = true ↔
        ∃ i ∈ offsetPattern.take 11, u = interTarget 18 (18 / 2) 0 i)) ∧
    ((List.range 18).filter
        (fun u => decide (18 / 2 ≤ u) && c10WitnessRun.1.hasEdge 0 u)).length
      = min 11 9) :=
  ⟨⟨by decide, by decide, fun j => (by decide : (0 : ℚ) ≤ mkRat 1 2),
      by decide, by decide⟩,
    @inter_links_truncated_to_nine 18 2 11 (fun _ => mkRat 1 2) (fun _ => 0) 1 0
      c10WitnessRun.1 c10WitnessRun.2.1 c10WitnessRun.2.2 0
      (by decide) (by decide) (fun j => (by decide : (0 : ℚ) ≤ mkRat 1 2))
      (by decide) (by decide)⟩

/-!
## The full pipeline (`OpinionModel.__init__` + `simulation` + report)

Everything the model draws from the two seeded generators (`np.random`
seeded with the model seed at `__init__`, `random` seeded inside the
network generators) is determined by the seed; this is modelled by an
ambient `entropyOf : seed → Entropy` producing the coin/index/permutation
streams.  The genuinely real-valued library functions — the Gaussian pdf of
`scipy.stats.norm`, the square root inside `np.std` and `sig`, the matrix
inverse of `np.linalg.inv`, and `sys.float_info.epsilon` — are likewise
ambient parameters, identical across runs of the same process. -/
def n_beliefs : ℕ := 200

/-- Bin width `self.db = (1 - (-1)) / n_beliefs`. -/
def db0 : ℚ := (2 : ℚ) / 200

/-- The draw streams derived from one seed: uniform floats (`coin`),
uniform index choices (`pick`), and the per-tick update order drawn by
`np.random.choice(self.schedule, size=n_agents, replace=False)`. -/
structure Entropy where
  coin : ℕ → ℚ
  pick : ℕ → ℕ
  perm : ℕ → List ℕ

/-- The ambient real-valued library functions and the seeded generator. -/
structure Ambient where
  gaussPdf : ℚ → ℚ → ℚ → ℚ
  sqrtQ : ℚ → ℚ
  matInvQ : Matrix (Fin n_beliefs) (Fin n_beliefs) ℚ →
    Matrix (Fin n_beliefs) (Fin n_beliefs) ℚ
  floatEps : ℚ
  entropyOf : ℕ → Entropy

/-- The configuration handed to `OpinionModel.__init__` (minus the seed,
which the determinism statement keeps separate). -/
structure ModelParams where
  n_agents : ℕ
  alpha_in : ℚ
  alpha_out : ℚ
  k : ℕ
  k_in : ℕ
  k_out : ℕ
  p_rewire : ℚ
  sig_op_0 : ℚ
  communication_frequency : ℚ
  kappa : ℚ
  delta_0 : ℚ
deriving DecidableEq

/-- A Python `social_identity` attribute value: `create_network` stores
ints, but `OpinionModel.__init__` (lines 126-128) overwrites the values of
nodes 0 and 1 with the whole per-group lists `[0]*group_size` and
`[1]*group_size` (its `social_id_affiliations` dict has keys 0 and 1 only),
so the attribute is list-valued on those two nodes. -/
inductive SocId where
  | intId (v : ℕ)
  | listId (vals : List ℕ)
deriving DecidableEq

/-- Comparison `social_id == 0` (Python): false for a list value. -/
def socIdEqZero : SocId → Bool
  | .intId v => v == 0
  | .listId _ => false

/-- The `social_identity` of node `i` seen by agent creation: nodes 0 and 1
carry the list values, the rest keep the labels from `create_network`. -/
def socialIdentityOf (gs : ℕ) (ids : List ℕ) (i : ℕ) : SocId :=
  if i = 0 then .listId (List.replicate gs 0)
  else if i = 1 then .listId (List.replicate gs 1)
  else .intId (ids.getD i 1)

/-- Mean `np.mean` of a list. -/
def npMean (xs : List ℚ) : ℚ := xs.sum / xs.length

/-- Dispersion `np.std` of a list, through the ambient square root. -/
def npStd (sqrtQ : ℚ → ℚ) (xs : List ℚ) : ℚ :=
  sqrtQ ((xs.map (fun x => (x - npMean xs) ^ 2)).sum / xs.length)

/-- An agent's `mean_op = np.dot(op, belief_space) / op.sum()`. -/
def mean_op {B : ℕ} (op : Vec B) : ℚ :=
  (∑ i, op i * belief_space B i) / sumV op

/-- Lines 132-150 of `OpinionModel.__init__`: draw the sign of the initial
mean with the group-biased probability, draw its magnitude, evaluate the
Gaussian pdf on the belief grid and normalise.  Two uniform draws per
agent; the state is the agent list plus the draw counter. -/
def initAgents (amb : Ambient) (ent : Entropy) (P : ModelParams)
    (socId : ℕ → SocId) (c0 : ℕ) : List (Vec n_beliefs) × ℕ :=
  (List.range P.n_agents).foldl
    (fun acc i =>
      let thr := if socIdEqZero (socId i) then mkRat 1 2 + P.delta_0 / 2
        else mkRat 1 2 - P.delta_0 / 2
      let positive := ent.coin acc.2 < thr
      let u2 := ent.coin (acc.2 + 1)
      let mu0 := if positive then u2 else -u2
      let op := normalizeOp db0
        (fun b => amb.gaussPdf mu0 P.sig_op_0 (belief_space n_beliefs b))
      (acc.1 ++ [op], acc.2 + 2))
    ([], c0)

/-- Method `OpinionModel.step` minus the bookkeeping: update every agent in the
drawn order; each agent flips its communication coin, then either receives
a message from a uniformly chosen neighbour (a no-op for isolated agents)
or diffuses. -/
def modelTick (amb : Ambient) (ent : Entropy) (P : ModelParams) (G : Graph)
    (socId : ℕ → SocId) (Pinv : Matrix (Fin n_beliefs) (Fin n_beliefs) ℚ)
    (t : ℕ) (st : List (Vec n_beliefs) × ℕ) : List (Vec n_beliefs) × ℕ :=
  (ent.perm t).foldl
    (fun acc idx =>
      let ags := acc.1
      let c := acc.2
      let op := ags.getD idx (fun _ => 0)
      if ent.coin c < P.communication_frequency then
        let nbs := G.neighborsOf idx
        if nbs.isEmpty then (ags, c + 1)
        else
          let speaker := pickFrom nbs (ent.pick (c + 1))
          let alpha := if socId speaker = socId idx then P.alpha_in
            else P.alpha_out
          let msg := ags.getD speaker (fun _ => 0)
          (ags.set idx
            (update_opinion_in_interaction db0 amb.floatEps alpha op msg), c + 2)
      else
        (ags.set idx (update_opinion_in_non_interaction db0 Pinv op), c + 1))
    st

/-- The agent population (and draw counter) after `t` ticks. -/
def agentsAfter (amb : Ambient) (ent : Entropy) (P : ModelParams) (G : Graph)
    (socId : ℕ → SocId) (Pinv : Matrix (Fin n_beliefs) (Fin n_beliefs) ℚ)
    (init : List (Vec n_beliefs) × ℕ) : ℕ → List (Vec n_beliefs) × ℕ
  | 0 => init
  | t + 1 => modelTick amb ent P G socId Pinv t
      (agentsAfter amb ent P G socId Pinv init t)

/-- The read-only report surface of a finished run. -/
structure RunReport where
  stored_times : List ℕ
  avg_mean_ops : List ℚ
  std_mean_ops : List ℚ
  consensus_time : Option ℕ
  consensus_mean : Option ℚ
deriving DecidableEq

/-- One whole run: asserts, network construction, agent initialisation,
the simulation loop with its consensus bookkeeping, and the checkpoint
statistics at the stored times (the values `observe` computes; its broken
store is the subject of `observe_raises_type_error`).  `none` models an
assertion failure or an unterminated rewiring loop. -/
def fullRun (amb : Ambient) (P : ModelParams) (seed : ℕ)
    (agent_reporter : Bool) (track_times : List ℕ) (fuel : ℕ) :
    Option RunReport :=
  if P.k_in + P.k_out ≠ P.k then none
  else if P.n_agents % 2 ≠ 0 then none
  else
    let ent := amb.entropyOf seed
    (create_withinAndBetweenGroup_network P.n_agents P.k_in P.k_out P.p_rewire
        ent.coin ent.pick fuel 0).bind fun r =>
      let socId := socialIdentityOf (P.n_agents / 2) r.2.1
      let Pinv := amb.matInvQ (mat_heat_equation n_beliefs P.kappa db0)
      let init := initAgents amb ent P socId r.2.2
      let popAt := fun t : ℕ =>
        (agentsAfter amb ent P r.1 socId Pinv init t).1.map mean_op
      let stds := fun t : ℕ => npStd amb.sqrtQ (popAt (t + 1))
      let means := fun t : ℕ => npMean (popAt (t + 1))
      let horizon := track_times.getLast?.getD 0
      let sim := simulation horizon agent_reporter stds means
      let stored := 0 :: track_times.filter
        (fun T => decide (0 < T) && decide (T ≤ sim.ticks))
      some
        { stored_times := stored,
          avg_mean_ops := stored.map (fun T => npMean (popAt T)),
          std_mean_ops := stored.map (fun T => npStd amb.sqrtQ (popAt T)),
          consensus_time := sim.consensus_time,
          consensus_mean := sim.consensus_mean }

/-- C7: the run is a pure function of the configuration and the seed — all
randomness comes from the seeded generators (`entropyOf seed`) and all
real-valued library functions are fixed ambient parameters — so two runs
with identical configuration and identical seed produce identical stored
checkpoint statistics and the same consensus time. -/
theorem identical_seed_identical_run (amb : Ambient) (P1 P2 : ModelParams)
    (seed1 seed2 : ℕ) (agent_reporter : Bool) (track_times : List ℕ)
    (fuel : ℕ) (hP : P1 = P2) (hs : seed1 = seed2) :
    fullRun amb P1 seed1 agent_reporter track_times fuel =
      fullRun amb P2 seed2 agent_reporter track_times fuel := by
  rw [hP, hs]

/-- Witness for `identical_seed_identical_run` at a concrete configuration
and seed. -/
theorem identical_seed_identical_run_witness :
    (ModelParams.mk 8 1 1 4 2 2 0 1 0 0 0 = ModelParams.mk 8 1 1 4 2 2 0 1 0 0 0
      ∧ (3 : ℕ) = 3) ∧
    fullRun (Ambient.mk (fun _ _ _ => 1) id (fun _ => 1) 1
        (fun _ => Entropy.mk (fun _ => 0) (fun _ => 0) (fun _ => [])))
      (ModelParams.mk 8 1 1 4 2 2 0 1 0 0 0) 3 true [0, 1] 1 =
    fullRun (Ambient.mk (fun _ _ _ => 1) id (fun _ => 1) 1
        (fun _ => Entropy.mk (fun _ => 0) (fun _ => 0) (fun _ => [])))
      (ModelParams.mk 8 1 1 4 2 2 0 1 0 0 0) 3 true [0, 1] 1 :=
  ⟨⟨rfl, rfl⟩,
    identical_seed_identical_run _ _ _ 3 3 true [0, 1] 1 rfl rfl⟩
